import Mathlib

/-!
Verification of the graph subsystem of the `clam-ratios` repository.

This file gives a shallow embedding, in Lean 4, of the cluster-graph code of
the repository:

* the score-driven candidate selectors
  (`src/abd-clam/src/core/graph/builder.rs` and
  `src/crates/abd-clam/src/chaoda/graph.rs`, `Graph::from_tree`),
* the edge detector (`builder.rs`, `detect_edges`),
* the reference graph and its breadth-first traversal
  (`src/abd-clam/src/core/graph/_graph.rs`),
* the compact, component-based graph of the anomaly pipeline
  (`src/crates/abd-clam/src/chaoda/graph.rs`).

Rust clusters are externally owned tree nodes; the embedding represents them
by identity keys (natural numbers or explicit records of the fields the code
reads), exactly as the specification's data model prescribes.  Rust hash sets
become `Finset`s or lists (with a `Nodup` hypothesis standing for set-ness and
an explicit list standing for the unspecified iteration order).  Rust loops
become fuel-indexed structural recursions; every entry point supplies a fuel
that is proved (or, for conditionally-terminating loops, hypothesised) to be
sufficient, and running out of fuel or hitting a Rust panic (index out of
bounds, `unreachable!`) is modelled by `Option`/`Except` failure.
-/

/-! ## Scores and comparators (builder.rs, chaoda/graph.rs)

Rust `f64`/`f32` scores are compared, never computed with, in the selector.
A score is modelled as `Option ℚ`: `some q` is an ordinary (comparable) float
and `none` is a NaN, which is incomparable under IEEE `partial_cmp`.  This
captures exactly the comparison behaviour the selector depends on. -/

/-- Model of Rust `f64::partial_cmp`: `none` (NaN) is incomparable with
everything, including itself; ordinary values compare numerically. -/
def partialCmpF : Option ℚ → Option ℚ → Option Ordering
  | some a, some b => some (compare a b)
  | _, _ => none

/-- Model of a `ClusterWrapper<'a, U>` from `builder.rs`: the selector reads
only the wrapped cluster's identity (here its depth, the field the claimed
tie-break is about) and the score. -/
structure CWrap where
  /-- Depth of the wrapped cluster in the tree. -/
  depth : ℕ
  /-- Score assigned by the scoring function (`none` models NaN). -/
  score : Option ℚ
  deriving DecidableEq, Repr

/-- Embedding of `ClusterWrapper::cmp` (builder.rs lines 58-62):
`self.score.partial_cmp(&other.score).unwrap_or(Ordering::Equal)`. -/
def clusterWrapperCmp (a b : CWrap) : Ordering :=
  (partialCmpF a.score b.score).getD Ordering.eq

/-- Model of the `ordered_float::OrderedFloat` total order used by
`Graph::from_tree` (chaoda/graph.rs line 53): ordinary values compare
numerically and NaN sorts as greater than every other value (and equal to
itself), per that crate's documented order. -/
def cmpOrderedFloat : Option ℚ → Option ℚ → Ordering
  | some a, some b => compare a b
  | some _, none => Ordering.lt
  | none, some _ => Ordering.gt
  | none, none => Ordering.eq

/-- Modelled from the spec: the `Ord` instance of `OddBall` clusters (the
cluster type itself is outside `src/`).  The spec and the comment at
chaoda/graph.rs lines 49-50 state that wrapping clusters in `Reverse` makes
the heap "bias towards selecting shallower `OddBall`s", i.e. clusters are
ordered by depth.  An `OddBall` is represented here by its depth, the only
field this order reads. -/
def cmpOddBall (d1 d2 : ℕ) : Ordering :=
  compare d1 d2

/-- Embedding of the priority used by the `BinaryHeap` in `Graph::from_tree`
(chaoda/graph.rs lines 51-56): the heap holds pairs
`(OrderedFloat score, Reverse cluster)`, compared lexicographically, so the
cluster comparison is reversed.  `Ordering.then` is the Rust lexicographic
`cmp` on tuples. -/
def fromTreeCmp (a b : Option ℚ × ℕ) : Ordering :=
  (cmpOrderedFloat a.1 b.1).then (cmpOddBall b.2 a.2)

/-! ## The score-driven antichain selectors

Both selectors drain a max-priority queue: pop the best candidate, keep it,
and delete every remaining candidate that is an ancestor or a descendant of
it.  A Rust `BinaryHeap` pop order is some linear sequence of the queue's
elements; the embedding takes that sequence as an explicit input list, so
every theorem quantified over all lists covers every actual heap order.  The
ancestor/descendant predicates live on the externally owned tree and are
taken as parameters. -/

/-- Fuel-indexed core of `get_clusterset` (builder.rs lines 94-107): pop the
head, then retain only candidates that are neither an ancestor nor a
descendant of it (`!item.cluster.is_ancestor_of(best) &&
!item.cluster.is_descendant_of(best)`).  The fuel dominates the list length,
which shrinks at every step. -/
def getClustersetGo {α : Type} (anc desc : α → α → Bool) : ℕ → List α → List α
  | 0, _ => []
  | _ + 1, [] => []
  | fuel + 1, c :: rest =>
      c :: getClustersetGo anc desc fuel
        (rest.filter (fun x => !anc x c && !desc x c))

/-- Embedding of `get_clusterset` (builder.rs lines 94-107), applied to the
pop-order list of the heap. -/
def getClusterset {α : Type} (anc desc : α → α → Bool) (l : List α) : List α :=
  getClustersetGo anc desc l.length l

/-- Fuel-indexed core of the selection loop of `Graph::from_tree`
(chaoda/graph.rs lines 58-64): pop the best cluster `c`, then
`candidates.retain(|other| !(c.is_ancestor_of(other) ||
c.is_descendant_of(other)))`.  Note the retained test is oriented from the
selected cluster `c`, unlike `get_clusterset`. -/
def fromTreeSelectGo {α : Type} (anc desc : α → α → Bool) : ℕ → List α → List α
  | 0, _ => []
  | _ + 1, [] => []
  | fuel + 1, c :: rest =>
      c :: fromTreeSelectGo anc desc fuel
        (rest.filter (fun x => !(anc c x || desc c x)))

/-- Embedding of the selection loop of `Graph::from_tree`
(chaoda/graph.rs lines 58-64), applied to the pop-order list of the heap. -/
def fromTreeSelect {α : Type} (anc desc : α → α → Bool) (l : List α) : List α :=
  fromTreeSelectGo anc desc l.length l

/-! ### Selection lemmas -/

/-- Every selected cluster was a candidate. -/
theorem getClustersetGo_subset {α : Type} (anc desc : α → α → Bool) :
    ∀ (fuel : ℕ) (l : List α), ∀ x ∈ getClustersetGo anc desc fuel l, x ∈ l := by
  intro fuel
  induction fuel with
  | zero => intro l x hx; simp [getClustersetGo] at hx
  | succ n ih =>
      intro l x hx
      cases l with
      | nil => simp [getClustersetGo] at hx
      | cons c rest =>
          simp only [getClustersetGo, List.mem_cons] at hx
          rcases hx with h | h
          · simp [h]
          · have := ih _ x h
            exact List.mem_cons_of_mem _ (List.mem_of_mem_filter this)

/-- Every cluster selected after `a` is neither an ancestor nor a descendant
of `a` (it survived the filter run when `a` was selected). -/
theorem getClustersetGo_pairwise {α : Type} (anc desc : α → α → Bool) :
    ∀ (fuel : ℕ) (l : List α), l.length ≤ fuel →
      List.Pairwise (fun a b => anc b a = false ∧ desc b a = false)
        (getClustersetGo anc desc fuel l) := by
  intro fuel
  induction fuel with
  | zero => intro l _; simp [getClustersetGo]
  | succ n ih =>
      intro l hlen
      cases l with
      | nil => simp [getClustersetGo]
      | cons c rest =>
          simp only [getClustersetGo]
          constructor
          · intro b hb
            have hbf := getClustersetGo_subset anc desc _ _ b hb
            have := List.of_mem_filter hbf
            simp only [Bool.and_eq_true, Bool.not_eq_true'] at this
            exact this
          · apply ih
            have h1 : (rest.filter (fun x => !anc x c && !desc x c)).length ≤ rest.length :=
              List.length_filter_le _ _
            have h2 : rest.length ≤ n := by
              simpa [Nat.succ_le_succ_iff] using hlen
            omega

/-- Every selected cluster of the `from_tree` loop was a candidate. -/
theorem fromTreeSelectGo_subset {α : Type} (anc desc : α → α → Bool) :
    ∀ (fuel : ℕ) (l : List α), ∀ x ∈ fromTreeSelectGo anc desc fuel l, x ∈ l := by
  intro fuel
  induction fuel with
  | zero => intro l x hx; simp [fromTreeSelectGo] at hx
  | succ n ih =>
      intro l x hx
      cases l with
      | nil => simp [fromTreeSelectGo] at hx
      | cons c rest =>
          simp only [fromTreeSelectGo, List.mem_cons] at hx
          rcases hx with h | h
          · simp [h]
          · have := ih _ x h
            exact List.mem_cons_of_mem _ (List.mem_of_mem_filter this)

/-- Every cluster selected after `a` by the `from_tree` loop is not related
to `a` (in the orientation the `retain` closure tests). -/
theorem fromTreeSelectGo_pairwise {α : Type} (anc desc : α → α → Bool) :
    ∀ (fuel : ℕ) (l : List α), l.length ≤ fuel →
      List.Pairwise (fun a b => anc a b = false ∧ desc a b = false)
        (fromTreeSelectGo anc desc fuel l) := by
  intro fuel
  induction fuel with
  | zero => intro l _; simp [fromTreeSelectGo]
  | succ n ih =>
      intro l hlen
      cases l with
      | nil => simp [fromTreeSelectGo]
      | cons c rest =>
          simp only [fromTreeSelectGo]
          constructor
          · intro b hb
            have hbf := fromTreeSelectGo_subset anc desc _ _ b hb
            have := List.of_mem_filter hbf
            simp only [Bool.not_eq_true', Bool.or_eq_false_iff] at this
            exact this
          · apply ih
            have h1 : (rest.filter (fun x => !(anc c x || desc c x))).length ≤ rest.length :=
              List.length_filter_le _ _
            have h2 : rest.length ≤ n := by
              simpa [Nat.succ_le_succ_iff] using hlen
            omega

/-- Coverage of the `get_clusterset` loop: every candidate is selected or is
an ancestor or descendant of a selected cluster. -/
theorem getClustersetGo_cover {α : Type} (anc desc : α → α → Bool) :
    ∀ (fuel : ℕ) (l : List α), l.length ≤ fuel → ∀ x ∈ l,
      x ∈ getClustersetGo anc desc fuel l ∨
        ∃ c ∈ getClustersetGo anc desc fuel l, anc x c = true ∨ desc x c = true := by
  intro fuel
  induction fuel with
  | zero =>
      intro l hlen x hx
      have : l = [] := List.eq_nil_of_length_eq_zero (Nat.le_zero.mp hlen)
      subst this; simp at hx
  | succ n ih =>
      intro l hlen x hx
      cases l with
      | nil => simp at hx
      | cons c rest =>
          rcases List.mem_cons.mp hx with rfl | hx
          · left; exact List.mem_cons_self x _
          · by_cases hp : (!anc x c && !desc x c) = true
            · have hxf : x ∈ rest.filter (fun y => !anc y c && !desc y c) :=
                List.mem_filter.mpr ⟨hx, hp⟩
              have hlen2 : (rest.filter (fun y => !anc y c && !desc y c)).length ≤ n := by
                have h1 := List.length_filter_le (fun y => !anc y c && !desc y c) rest
                have h2 : rest.length ≤ n := by
                  simpa [Nat.succ_le_succ_iff] using hlen
                omega
              rcases ih _ hlen2 x hxf with h | ⟨c', hc', hrel⟩
              · left; exact List.mem_cons_of_mem c h
              · right
                exact ⟨c', List.mem_cons_of_mem c hc', hrel⟩
            · right
              refine ⟨c, List.mem_cons_self c _, ?_⟩
              simp only [Bool.and_eq_true, Bool.not_eq_true', not_and_or,
                Bool.not_eq_false] at hp
              tauto

/-- Coverage of the `from_tree` selection loop: every candidate is selected
or is related (as tested by the `retain` closure) to a selected cluster. -/
theorem fromTreeSelectGo_cover {α : Type} (anc desc : α → α → Bool) :
    ∀ (fuel : ℕ) (l : List α), l.length ≤ fuel → ∀ x ∈ l,
      x ∈ fromTreeSelectGo anc desc fuel l ∨
        ∃ c ∈ fromTreeSelectGo anc desc fuel l, anc c x = true ∨ desc c x = true := by
  intro fuel
  induction fuel with
  | zero =>
      intro l hlen x hx
      have : l = [] := List.eq_nil_of_length_eq_zero (Nat.le_zero.mp hlen)
      subst this; simp at hx
  | succ n ih =>
      intro l hlen x hx
      cases l with
      | nil => simp at hx
      | cons c rest =>
          rcases List.mem_cons.mp hx with rfl | hx
          · left; exact List.mem_cons_self x _
          · by_cases hp : (!(anc c x || desc c x)) = true
            · have hxf : x ∈ rest.filter (fun y => !(anc c y || desc c y)) :=
                List.mem_filter.mpr ⟨hx, hp⟩
              have hlen2 : (rest.filter (fun y => !(anc c y || desc c y))).length ≤ n := by
                have h1 := List.length_filter_le (fun y => !(anc c y || desc c y)) rest
                have h2 : rest.length ≤ n := by
                  simpa [Nat.succ_le_succ_iff] using hlen
                omega
              rcases ih _ hlen2 x hxf with h | ⟨c', hc', hrel⟩
              · left; exact List.mem_cons_of_mem c h
              · right
                exact ⟨c', List.mem_cons_of_mem c hc', hrel⟩
            · right
              refine ⟨c, List.mem_cons_self c _, ?_⟩
              simp only [Bool.not_eq_true', Bool.or_eq_false_iff, not_and_or,
                Bool.not_eq_false] at hp
              tauto

/-! ## The cluster tree (external collaborator, modelled at its interface)

Modelled from the spec: the hierarchical tree builder is outside `src/`; the
spec specifies only its interface (`subtree()`, `is_leaf`, `depth`,
`is_ancestor_of`/`is_descendant_of`).  The tree is binary (each cluster
partitions into two children); a cluster is identified by its position, a
list of booleans giving the branch taken at each level, `depth` is the length
of that position, a `leaf` is a cluster with no children and `a` is an
ancestor of `b` exactly when `a`'s position is a strict prefix of `b`'s. -/
inductive BTree : Type
  /-- A cluster with no children. -/
  | bleaf : BTree
  /-- A cluster with two child clusters. -/
  | bnode : BTree → BTree → BTree
  deriving DecidableEq, Repr

/-- Modelled from the spec: `subtree()` enumerates the root and all its
descendants, here as their positions. -/
def subtreePaths : BTree → List (List Bool)
  | .bleaf => [[]]
  | .bnode l r =>
      [] :: ((subtreePaths l).map (List.cons false) ++
             (subtreePaths r).map (List.cons true))

/-- Modelled from the spec: `is_leaf()` of the cluster at position `p`. -/
def isLeafAt : BTree → List Bool → Bool
  | .bleaf, [] => true
  | .bleaf, _ :: _ => false
  | .bnode _ _, [] => false
  | .bnode l _, false :: p => isLeafAt l p
  | .bnode _ r, true :: p => isLeafAt r p

/-- Modelled from the spec: `is_ancestor_of` on positions, i.e. strict
prefix. -/
def ancPathB (p q : List Bool) : Bool :=
  decide (p ≠ q) && decide (q.take p.length = p)

/-- Modelled from the spec: `is_descendant_of` is the converse of
`is_ancestor_of`. -/
def descPathB (p q : List Bool) : Bool :=
  ancPathB q p

/-- Embedding of the eligibility filter of `Graph::from_tree`
(chaoda/graph.rs line 54): `c.is_leaf() || c.depth() >= min_depth`. -/
def eligiblePaths (t : BTree) (minDepth : ℕ) : List (List Bool) :=
  (subtreePaths t).filter (fun p => isLeafAt t p || decide (minDepth ≤ p.length))

/-! ### Tree lemmas -/

/-- Strict-prefix characterisation of the ancestor test. -/
theorem ancPathB_iff (p q : List Bool) :
    ancPathB p q = true ↔ ∃ r, q = p ++ r ∧ r ≠ [] := by
  constructor
  · intro h
    simp only [ancPathB, Bool.and_eq_true, decide_eq_true_eq] at h
    refine ⟨q.drop p.length, ?_, ?_⟩
    · conv_lhs => rw [← List.take_append_drop p.length q]
      rw [h.2]
    · intro hnil
      apply h.1
      have h3 := List.take_append_drop p.length q
      rw [hnil, List.append_nil, h.2] at h3
      exact h3
  · rintro ⟨r, rfl, hr⟩
    simp only [ancPathB, Bool.and_eq_true, decide_eq_true_eq]
    constructor
    · intro hpq
      have : p.length = p.length + r.length := by
        conv_lhs => rw [hpq]
        simp
      have : r.length = 0 := by omega
      exact hr (List.eq_nil_of_length_eq_zero this)
    · simp [List.take_left p r]

/-- The ancestor relation on positions is transitive. -/
theorem ancPathB_trans {p q s : List Bool} (h1 : ancPathB p q = true)
    (h2 : ancPathB q s = true) : ancPathB p s = true := by
  rw [ancPathB_iff] at h1 h2 ⊢
  obtain ⟨r, rfl, hr⟩ := h1
  obtain ⟨u, rfl, hu⟩ := h2
  exact ⟨r ++ u, by simp, by simp [hr]⟩

/-- Two ancestors of a common position are comparable. -/
theorem ancPathB_comparable {x c q : List Bool} (hx : ancPathB x q = true)
    (hc : ancPathB c q = true) :
    x = c ∨ ancPathB x c = true ∨ ancPathB c x = true := by
  rw [ancPathB_iff] at hx hc
  obtain ⟨r, hr, hrne⟩ := hx
  obtain ⟨s, hs, hsne⟩ := hc
  have hxq : q.take x.length = x := by rw [hr]; simp [List.take_left x r]
  have hcq : q.take c.length = c := by rw [hs]; simp [List.take_left c s]
  rcases Nat.lt_trichotomy x.length c.length with h | h | h
  · right; left
    rw [ancPathB_iff]
    refine ⟨c.drop x.length, ?_, ?_⟩
    · have : c.take x.length = x := by
        rw [← hcq, List.take_take, Nat.min_eq_left (Nat.le_of_lt h), hxq]
      conv_lhs => rw [← List.take_append_drop x.length c]
      rw [this]
    · intro hnil
      have := congrArg List.length (List.take_append_drop x.length c)
      rw [hnil] at this
      simp at this
      omega
  · left
    rw [← hxq, ← hcq, h]
  · right; right
    rw [ancPathB_iff]
    refine ⟨x.drop c.length, ?_, ?_⟩
    · have : x.take c.length = c := by
        rw [← hxq, List.take_take, Nat.min_eq_left (Nat.le_of_lt h), hcq]
      conv_lhs => rw [← List.take_append_drop c.length x]
      rw [this]
    · intro hnil
      have := congrArg List.length (List.take_append_drop c.length x)
      rw [hnil] at this
      simp at this
      omega

/-- Lifting the ancestor test under a common first branch. -/
theorem ancPathB_cons (b : Bool) {p q : List Bool} (h : ancPathB p q = true) :
    ancPathB (b :: p) (b :: q) = true := by
  rw [ancPathB_iff] at h ⊢
  obtain ⟨r, rfl, hr⟩ := h
  exact ⟨r, by simp, hr⟩

/-- Every position in a tree has a leaf of that tree below or at it. -/
theorem exists_leaf_below (t : BTree) :
    ∀ p ∈ subtreePaths t, ∃ q ∈ subtreePaths t,
      isLeafAt t q = true ∧ (q = p ∨ ancPathB p q = true) := by
  induction t with
  | bleaf =>
      intro p hp
      simp only [subtreePaths, List.mem_singleton] at hp
      subst hp
      exact ⟨[], by simp [subtreePaths], by simp [isLeafAt], Or.inl rfl⟩
  | bnode l r ihl ihr =>
      intro p hp
      simp only [subtreePaths, List.mem_cons, List.mem_append, List.mem_map] at hp
      rcases hp with rfl | ⟨p', hp', rfl⟩ | ⟨p', hp', rfl⟩
      · obtain ⟨q', hq', hleaf, _⟩ := ihl [] (by
          cases l with
          | bleaf => simp [subtreePaths]
          | bnode a b => simp [subtreePaths])
        refine ⟨false :: q', ?_, ?_, ?_⟩
        · simp only [subtreePaths, List.mem_cons, List.mem_append, List.mem_map]
          exact Or.inr (Or.inl ⟨q', hq', rfl⟩)
        · simpa [isLeafAt] using hleaf
        · right
          rw [ancPathB_iff]
          exact ⟨false :: q', by simp, by simp⟩
      · obtain ⟨q', hq', hleaf, hrel⟩ := ihl p' hp'
        refine ⟨false :: q', ?_, ?_, ?_⟩
        · simp only [subtreePaths, List.mem_cons, List.mem_append, List.mem_map]
          exact Or.inr (Or.inl ⟨q', hq', rfl⟩)
        · simpa [isLeafAt] using hleaf
        · rcases hrel with rfl | h
          · exact Or.inl rfl
          · exact Or.inr (ancPathB_cons false h)
      · obtain ⟨q', hq', hleaf, hrel⟩ := ihr p' hp'
        refine ⟨true :: q', ?_, ?_, ?_⟩
        · simp only [subtreePaths, List.mem_cons, List.mem_append, List.mem_map]
          exact Or.inr (Or.inr ⟨q', hq', rfl⟩)
        · simpa [isLeafAt] using hleaf
        · rcases hrel with rfl | h
          · exact Or.inl rfl
          · exact Or.inr (ancPathB_cons true h)

/-! ## Claims C3, C4, C5 -/

/-- Claim C3, as stated, is false for the selector comparator that is in
`src/` (`ClusterWrapper::cmp`, builder.rs lines 58-62): on equal scores it
returns `Equal` regardless of depth, so a shallower candidate is not ranked
above (hence not necessarily selected before) a deeper one.  Concretely, a
wrapper of depth `0` and one of depth `5` with equal score `1` compare
`Equal`, not `Greater`. -/
theorem claim_C3_counterexample :
    ¬ (∀ w1 w2 : CWrap, w1.score = w2.score → w1.depth < w2.depth →
        clusterWrapperCmp w1 w2 = Ordering.gt) := by
  intro h
  have h5 : (0 : ℕ) < 5 := by norm_num
  have := h ⟨0, some 1⟩ ⟨5, some 1⟩ rfl h5
  rw [show clusterWrapperCmp ⟨0, some 1⟩ ⟨5, some 1⟩ = Ordering.eq from by
    simp [clusterWrapperCmp, partialCmpF, compare_eq_iff_eq]] at this
  exact Ordering.noConfusion this

/-- Claim C3 (amended): in the `from_tree` selector the heap priority does
tie-break equal scores towards the shallower cluster; in the builder's
`ClusterWrapper` comparator equal scores compare `Equal` regardless of depth
(no tie-break), a NaN or incomparable score is treated as equal to any other
score (`partial_cmp(..).unwrap_or(Equal)`), and comparison is total so
selection never fails; in the `from_tree` selector a NaN score is not
treated as equal: `OrderedFloat` sorts it above every other score. -/
theorem claim_C3_amended :
    (∀ (s : Option ℚ) (d1 d2 : ℕ), d1 < d2 →
        fromTreeCmp (s, d1) (s, d2) = Ordering.gt) ∧
    (∀ w1 w2 : CWrap, w1.score = w2.score →
        clusterWrapperCmp w1 w2 = Ordering.eq) ∧
    (∀ w1 w2 : CWrap, w1.score = none ∨ w2.score = none →
        clusterWrapperCmp w1 w2 = Ordering.eq) ∧
    (∀ q : ℚ, cmpOrderedFloat none (some q) = Ordering.gt ∧
        cmpOrderedFloat (some q) none = Ordering.lt) := by
  refine ⟨?_, ?_, ?_, ?_⟩
  · intro s d1 d2 hd
    have hs : cmpOrderedFloat s s = Ordering.eq := by
      cases s with
      | none => rfl
      | some a => simp [cmpOrderedFloat, compare_eq_iff_eq]
    have hdd : cmpOddBall d2 d1 = Ordering.gt := by
      simp only [cmpOddBall, compare_gt_iff_gt]
      exact hd
    simp only [fromTreeCmp, hs, hdd]
    rfl
  · intro w1 w2 hs
    rcases h : w1.score with _ | q
    · rw [h] at hs
      simp [clusterWrapperCmp, h, ← hs, partialCmpF]
    · rw [h] at hs
      simp [clusterWrapperCmp, h, ← hs, partialCmpF, compare_eq_iff_eq]
  · intro w1 w2 hs
    rcases hs with h | h <;>
      rcases h1 : w1.score with _ | q1 <;> rcases h2 : w2.score with _ | q2 <;>
        simp_all [clusterWrapperCmp, partialCmpF]
  · intro q
    exact ⟨rfl, rfl⟩

/-- Witness for `claim_C3_amended` at concrete inputs. -/
theorem claim_C3_amended_witness :
    fromTreeCmp (some 1, 0) (some 1, 5) = Ordering.gt ∧
    clusterWrapperCmp ⟨0, some 1⟩ ⟨5, some 1⟩ = Ordering.eq ∧
    clusterWrapperCmp ⟨0, none⟩ ⟨5, some 1⟩ = Ordering.eq ∧
    cmpOrderedFloat none (some 1) = Ordering.gt :=
  ⟨claim_C3_amended.1 (some 1) 0 5 (by norm_num),
   claim_C3_amended.2.1 ⟨0, some 1⟩ ⟨5, some 1⟩ rfl,
   claim_C3_amended.2.2.1 ⟨0, none⟩ ⟨5, some 1⟩ (Or.inl rfl),
   (claim_C3_amended.2.2.2 1).1⟩

/-- Claim C4: the output of the score-driven selector is an antichain, for
both the `get_clusterset` variant (builder.rs lines 94-107) and the
`from_tree` variant (chaoda/graph.rs lines 58-64), for every heap pop order
`l`, provided the tree's ancestor and descendant predicates are converses of
each other. -/
theorem claim_C4_antichain {α : Type} (anc desc : α → α → Bool)
    (hconv : ∀ a b, anc a b = desc b a) (l : List α) :
    (∀ i ∈ getClusterset anc desc l, ∀ j ∈ getClusterset anc desc l, i ≠ j →
        anc i j = false ∧ desc i j = false) ∧
    (∀ i ∈ fromTreeSelect anc desc l, ∀ j ∈ fromTreeSelect anc desc l, i ≠ j →
        anc i j = false ∧ desc i j = false) := by
  constructor
  · intro i hi j hj hne
    have hpw := getClustersetGo_pairwise anc desc l.length l le_rfl
    have hpw2 : List.Pairwise
        (fun a b => (anc a b = false ∧ desc a b = false) ∧
          (anc b a = false ∧ desc b a = false))
        (getClusterset anc desc l) := by
      refine List.Pairwise.imp ?_ hpw
      intro a b h
      exact ⟨⟨(hconv a b).trans h.2, (hconv b a).symm.trans h.1⟩, h⟩
    have hs : Symmetric (fun a b : α =>
        (anc a b = false ∧ desc a b = false) ∧
          (anc b a = false ∧ desc b a = false)) :=
      fun a b h => ⟨h.2, h.1⟩
    exact ((hpw2.forall hs) hi hj hne).1
  · intro i hi j hj hne
    have hpw := fromTreeSelectGo_pairwise anc desc l.length l le_rfl
    have hpw2 : List.Pairwise
        (fun a b => (anc a b = false ∧ desc a b = false) ∧
          (anc b a = false ∧ desc b a = false))
        (fromTreeSelect anc desc l) := by
      refine List.Pairwise.imp ?_ hpw
      intro a b h
      exact ⟨h, ⟨(hconv b a).trans h.2, (hconv a b).symm.trans h.1⟩⟩
    have hs : Symmetric (fun a b : α =>
        (anc a b = false ∧ desc a b = false) ∧
          (anc b a = false ∧ desc b a = false)) :=
      fun a b h => ⟨h.2, h.1⟩
    exact ((hpw2.forall hs) hi hj hne).1

/-- Witness for `claim_C4_antichain` on a concrete three-cluster tree
(positions as ancestor/descendant predicates, which are converses by
definition). -/
theorem claim_C4_antichain_witness :
    (∀ i ∈ getClusterset ancPathB descPathB [[], [false], [true]],
      ∀ j ∈ getClusterset ancPathB descPathB [[], [false], [true]], i ≠ j →
        ancPathB i j = false ∧ descPathB i j = false) ∧
    (∀ i ∈ fromTreeSelect ancPathB descPathB [[], [false], [true]],
      ∀ j ∈ fromTreeSelect ancPathB descPathB [[], [false], [true]], i ≠ j →
        ancPathB i j = false ∧ descPathB i j = false) :=
  claim_C4_antichain ancPathB descPathB (fun _ _ => rfl) [[], [false], [true]]

/-- Claim C5: coverage of the score-driven selectors.  First conjunct: for
the `get_clusterset` variant (whose heap holds the whole subtree, builder.rs
lines 82-107), every candidate in the heap order `l` is selected or is an
ancestor or descendant of a selected cluster, for arbitrary
ancestor/descendant predicates.  Second conjunct: for the `from_tree`
variant (chaoda/graph.rs lines 45-68), whose heap holds only the eligible
clusters (`is_leaf || depth >= min_depth`), coverage still holds for every
node of the source subtree: every position of the tree is selected or
related to a selected position. -/
theorem claim_C5_coverage {α : Type} (anc desc : α → α → Bool) (l : List α)
    (t : BTree) (minDepth : ℕ) (lt : List (List Bool))
    (hlt : ∀ p, p ∈ lt ↔ p ∈ eligiblePaths t minDepth) :
    (∀ x ∈ l, x ∈ getClusterset anc desc l ∨
        ∃ c ∈ getClusterset anc desc l, anc x c = true ∨ desc x c = true) ∧
    (∀ x ∈ subtreePaths t, x ∈ fromTreeSelect ancPathB descPathB lt ∨
        ∃ c ∈ fromTreeSelect ancPathB descPathB lt,
          ancPathB x c = true ∨ descPathB x c = true) := by
  constructor
  · intro x hx
    exact getClustersetGo_cover anc desc l.length l le_rfl x hx
  · intro x hx
    obtain ⟨q, hq, hqleaf, hqrel⟩ := exists_leaf_below t x hx
    have hqelig : q ∈ eligiblePaths t minDepth := by
      refine List.mem_filter.mpr ⟨hq, ?_⟩
      simp [hqleaf]
    have hqlt : q ∈ lt := (hlt q).mpr hqelig
    have hcov := fromTreeSelectGo_cover ancPathB descPathB lt.length lt le_rfl q hqlt
    rcases hqrel with rfl | hanc
    · rcases hcov with h | ⟨c, hc, hrel⟩
      · exact Or.inl h
      · right
        refine ⟨c, hc, ?_⟩
        rcases hrel with h | h
        · right
          exact h
        · left
          exact h
    · rcases hcov with h | ⟨c, hc, hrel⟩
      · right
        exact ⟨q, h, Or.inl hanc⟩
      · rcases hrel with h | h
        · rcases ancPathB_comparable hanc h with rfl | hxc | hcx
          · left
            exact hc
          · right
            exact ⟨c, hc, Or.inl hxc⟩
          · right
            exact ⟨c, hc, Or.inr hcx⟩
        · right
          exact ⟨c, hc, Or.inl (ancPathB_trans hanc h)⟩

/-- Witness for `claim_C5_coverage` on a concrete tree of three clusters
with a `min_depth` that makes the root ineligible. -/
theorem claim_C5_coverage_witness :
    (∀ x ∈ ([[], [false]] : List (List Bool)),
      x ∈ getClusterset ancPathB descPathB [[], [false]] ∨
        ∃ c ∈ getClusterset ancPathB descPathB [[], [false]],
          ancPathB x c = true ∨ descPathB x c = true) ∧
    (∀ x ∈ subtreePaths (BTree.bnode BTree.bleaf BTree.bleaf),
      x ∈ fromTreeSelect ancPathB descPathB
            (eligiblePaths (BTree.bnode BTree.bleaf BTree.bleaf) 5) ∨
        ∃ c ∈ fromTreeSelect ancPathB descPathB
            (eligiblePaths (BTree.bnode BTree.bleaf BTree.bleaf) 5),
          ancPathB x c = true ∨ descPathB x c = true) :=
  claim_C5_coverage ancPathB descPathB [[], [false]]
    (BTree.bnode BTree.bleaf BTree.bleaf) 5
    (eligiblePaths (BTree.bnode BTree.bleaf BTree.bleaf) 5)
    (fun _ => Iff.rfl)

/-! ## Edge detection (builder.rs, `detect_edges`)

Clusters are identified by natural-number keys; the dataset metric and the
cluster radii are parameters (`c1.distance_to_other(data, c2)` and
`radius()` live on the external tree).  The `HashSet` iteration order of the
candidate set is an explicit `Nodup` list. -/

/-- Iteration pattern of the nested loop of `detect_edges` (builder.rs lines
30-39): `for (i, c1) in clusters.iter().enumerate()` and
`for (j, c2) in clusters.iter().enumerate().skip(i + 1)` produce exactly the
pairs `(l[i], l[j])` with `i < j` (the inner `if i != j` guard is always
true because `j ≥ i + 1`). -/
def pairsAfter {α : Type} : List α → List (α × α)
  | [] => []
  | c :: rest => rest.map (fun x => (c, x)) ++ pairsAfter rest

/-- Embedding of `Edge::new` (_graph.rs lines 61-71): store the endpoint
pair in canonical (sorted) order, keeping the distance. -/
def edgeNew (a b : ℕ) (d : ℚ) : ℕ × ℕ × ℚ :=
  if a < b then (a, b, d) else (b, a, d)

/-- Embedding of `detect_edges` (builder.rs lines 25-42): for each pair in
iteration order, compute the metric distance and emit a canonical edge
exactly when the distance is at most the sum of the two radii. -/
def detectEdges (radius : ℕ → ℚ) (dist : ℕ → ℕ → ℚ) (l : List ℕ) :
    List (ℕ × ℕ × ℚ) :=
  (pairsAfter l).filterMap (fun p =>
    if dist p.1 p.2 ≤ radius p.1 + radius p.2 then
      some (edgeNew p.1 p.2 (dist p.1 p.2))
    else none)

/-- Both components of a tested pair come from the candidate list. -/
theorem mem_pairsAfter {α : Type} :
    ∀ (l : List α) (x y : α), (x, y) ∈ pairsAfter l → x ∈ l ∧ y ∈ l := by
  intro l
  induction l with
  | nil => intro x y h; simp [pairsAfter] at h
  | cons c rest ih =>
      intro x y h
      simp only [pairsAfter, List.mem_append, List.mem_map] at h
      rcases h with ⟨z, hz, hzeq⟩ | h
      · obtain ⟨rfl, rfl⟩ := Prod.mk.injEq .. ▸ hzeq
        constructor
        · exact List.mem_cons_self _ _
        · exact List.mem_cons_of_mem _ hz
      · obtain ⟨hx, hy⟩ := ih x y h
        exact ⟨List.mem_cons_of_mem _ hx, List.mem_cons_of_mem _ hy⟩

/-- Counting pairs contributed by one outer iteration. -/
theorem count_map_pair (c : ℕ) (rest : List ℕ) (a b : ℕ) :
    (rest.map (fun x => (c, x))).count (a, b) =
      if c = a then rest.count b else 0 := by
  induction rest with
  | nil => simp
  | cons y ys ih =>
      simp only [List.map_cons, List.count_cons, ih, Prod.mk.injEq]
      by_cases hca : c = a
      · subst hca
        simp only [if_pos rfl]
        by_cases hyb : y = b
        · simp [hyb]
        · simp [hyb]
      · simp [hca]

/-- A pair of distinct members of a `Nodup` candidate list is tested exactly
once by the nested loop, in exactly one orientation. -/
theorem pairsAfter_count (l : List ℕ) (hnd : l.Nodup) (a b : ℕ)
    (ha : a ∈ l) (hb : b ∈ l) (hab : a ≠ b) :
    (pairsAfter l).count (a, b) + (pairsAfter l).count (b, a) = 1 := by
  induction l with
  | nil => simp at ha
  | cons c rest ih =>
      have hndr : rest.Nodup := hnd.of_cons
      have hcr : c ∉ rest := (List.nodup_cons.mp hnd).1
      simp only [pairsAfter, List.count_append, count_map_pair]
      rcases List.mem_cons.mp ha with rfl | har
      · have hbr : b ∈ rest := by
          rcases List.mem_cons.mp hb with rfl | h
          · exact absurd rfl hab
          · exact h
        have h1 : rest.count b = 1 := List.count_eq_one_of_mem hndr hbr
        have h2 : (pairsAfter rest).count (a, b) = 0 := by
          rw [List.count_eq_zero]
          intro hmem
          exact hcr (mem_pairsAfter rest a b hmem).1
        have h3 : (pairsAfter rest).count (b, a) = 0 := by
          rw [List.count_eq_zero]
          intro hmem
          exact hcr (mem_pairsAfter rest b a hmem).2
        rw [if_pos rfl, if_neg hab, h1, h2, h3]
      · rcases List.mem_cons.mp hb with rfl | hbr
        · have h1 : rest.count a = 1 := List.count_eq_one_of_mem hndr har
          have h2 : (pairsAfter rest).count (a, b) = 0 := by
            rw [List.count_eq_zero]
            intro hmem
            exact hcr (mem_pairsAfter rest a b hmem).2
          have h3 : (pairsAfter rest).count (b, a) = 0 := by
            rw [List.count_eq_zero]
            intro hmem
            exact hcr (mem_pairsAfter rest b a hmem).1
          rw [if_neg (fun h => hab h.symm), if_pos rfl, h1, h2, h3]
        · have hca : c ≠ a := fun h => hcr (h ▸ har)
          have hcb : c ≠ b := fun h => hcr (h ▸ hbr)
          rw [if_neg hca, if_neg hcb]
          simpa using ih hndr har hbr

/-- Canonicalization makes the edge independent of endpoint orientation. -/
theorem edgeNew_comm (a b : ℕ) (d : ℚ) : edgeNew a b d = edgeNew b a d := by
  unfold edgeNew
  rcases Nat.lt_trichotomy a b with h | h | h
  · rw [if_pos h, if_neg (by omega)]
  · subst h
    rfl
  · rw [if_neg (by omega), if_pos h]

/-- A canonical edge determines its distance and its unordered endpoint
pair. -/
theorem edgeNew_inj {x y a b : ℕ} {d e : ℚ}
    (h : edgeNew x y d = edgeNew a b e) :
    d = e ∧ ((x = a ∧ y = b) ∨ (x = b ∧ y = a)) := by
  unfold edgeNew at h
  split_ifs at h <;>
    · simp only [Prod.mk.injEq] at h
      obtain ⟨h1, h2, h3⟩ := h
      exact ⟨h3, by omega⟩

/-- Claim C6: `detect_edges` tests each unordered pair of distinct
candidates exactly once (in exactly one orientation of the nested loop) and
emits the canonical edge for the pair exactly when the metric distance is at
most the sum of the two radii. -/
theorem claim_C6_detect_edges (radius : ℕ → ℚ) (dist : ℕ → ℕ → ℚ)
    (hsym : ∀ x y, dist x y = dist y x) (l : List ℕ) (hnd : l.Nodup)
    (a b : ℕ) (ha : a ∈ l) (hb : b ∈ l) (hab : a ≠ b) :
    (pairsAfter l).count (a, b) + (pairsAfter l).count (b, a) = 1 ∧
    (edgeNew a b (dist a b) ∈ detectEdges radius dist l ↔
      dist a b ≤ radius a + radius b) := by
  refine ⟨pairsAfter_count l hnd a b ha hb hab, ?_, ?_⟩
  · intro h
    obtain ⟨p, hp, hpe⟩ := List.mem_filterMap.mp h
    by_cases hcond : dist p.1 p.2 ≤ radius p.1 + radius p.2
    · rw [if_pos hcond] at hpe
      obtain ⟨hdist, hends⟩ := edgeNew_inj (Option.some.injEq .. ▸ hpe)
      rcases hends with ⟨h1, h2⟩ | ⟨h1, h2⟩
      · rw [h1, h2] at hcond
        exact hcond
      · rw [h1, h2] at hcond
        rw [hsym b a] at hcond
        linarith [hcond]
    · rw [if_neg hcond] at hpe
      exact Option.noConfusion hpe
  · intro h
    have hsum := pairsAfter_count l hnd a b ha hb hab
    have : 0 < (pairsAfter l).count (a, b) ∨ 0 < (pairsAfter l).count (b, a) := by
      omega
    rcases this with hpos | hpos
    · have hmem : (a, b) ∈ pairsAfter l := List.count_pos_iff.mp hpos
      refine List.mem_filterMap.mpr ⟨(a, b), hmem, ?_⟩
      rw [if_pos h]
    · have hmem : (b, a) ∈ pairsAfter l := List.count_pos_iff.mp hpos
      refine List.mem_filterMap.mpr ⟨(b, a), hmem, ?_⟩
      have hcond : dist b a ≤ radius b + radius a := by
        rw [hsym b a]
        linarith [h]
      rw [if_pos hcond]
      rw [show dist b a = dist a b from hsym b a, edgeNew_comm]

/-- Witness for `claim_C6_detect_edges` on a concrete two-candidate list
with unit radii and unit distances. -/
theorem claim_C6_detect_edges_witness :
    (pairsAfter [0, 1]).count (0, 1) + (pairsAfter [0, 1]).count (1, 0) = 1 ∧
    (edgeNew 0 1 ((fun _ _ => (1 : ℚ)) 0 1) ∈
        detectEdges (fun _ => (1 : ℚ)) (fun _ _ => (1 : ℚ)) [0, 1] ↔
      (fun _ _ => (1 : ℚ)) 0 1 ≤ (fun _ => (1 : ℚ)) 0 + (fun _ => (1 : ℚ)) 1) :=
  claim_C6_detect_edges (fun _ => (1 : ℚ)) (fun _ _ => (1 : ℚ))
    (fun _ _ => rfl) [0, 1] (by decide) 0 1 (by decide) (by decide) (by decide)

/-! ## The reference Graph (_graph.rs)

Clusters are identified by natural-number keys.  The `HashSet` of clusters
is a `Finset ℕ`; the `adjacency_map` (whose keys are exactly the graph's
clusters and whose value sets are subsets of them, by construction in
`Graph::new`) is represented by its graph, a `Finset` of directed pairs
whose endpoints lie in the cluster set. -/
structure RefGraph where
  /-- The set of clusters of the graph (`Graph.clusters`). -/
  clusters : Finset ℕ
  /-- The pairs `(c, n)` such that `n` is in `adjacency_map[c]`. -/
  adjPairs : Finset (ℕ × ℕ)
  /-- In `Graph::new` every adjacency entry is keyed by a cluster of the
  graph and holds clusters of the graph. -/
  hadj : ∀ p ∈ adjPairs, p.1 ∈ clusters ∧ p.2 ∈ clusters

/-- Embedding of `unchecked_neighbors_of` (_graph.rs lines 318-322): the
neighbor set of `c` in the adjacency map.  (For `c` outside the graph the
Rust code treats the lookup as unreachable; the model returns `∅`.) -/
def RefGraph.adj (g : RefGraph) (c : ℕ) : Finset ℕ :=
  (g.adjPairs.filter (fun p => p.1 = c)).image Prod.snd

/-- Embedding of `Graph::new` (_graph.rs lines 141-182): assert the cluster
set is non-empty, then build the adjacency map by inserting both directions
of every edge; inserting an edge whose endpoint is not a key of the map is
an `unwrap` panic, modelled as `none`. -/
def refGraphNew (clusters : Finset ℕ) (edges : List (ℕ × ℕ × ℚ)) :
    Option RefGraph :=
  if clusters = ∅ then none
  else if h : ∀ e ∈ edges, e.1 ∈ clusters ∧ e.2.1 ∈ clusters then
    some ⟨clusters,
      (edges.map (fun e => (e.1, e.2.1))).toFinset ∪
        (edges.map (fun e => (e.2.1, e.1))).toFinset,
      by
        intro p hp
        rcases Finset.mem_union.mp hp with hm | hm <;>
          · simp only [List.mem_toFinset, List.mem_map] at hm
            obtain ⟨e, he, rfl⟩ := hm
            obtain ⟨h1, h2⟩ := h e he
            exact ⟨by assumption, by assumption⟩⟩
  else none

/-- Fuel-indexed embedding of the loop of `unchecked_traverse` (_graph.rs
lines 332-350): while the frontier is non-empty, merge it into `visited`,
replace it by the unvisited neighbors of its members, and push the new
frontier's size.  The entry point supplies fuel exceeding the number of
iterations (proved in `traverseAux_run` and `uncheckedTraverse_spec`). -/
def traverseAux (g : RefGraph) : ℕ → Finset ℕ → Finset ℕ → List ℕ →
    Finset ℕ × List ℕ
  | 0, visited, _, sizes => (visited, sizes)
  | fuel + 1, visited, frontier, sizes =>
      if frontier = ∅ then (visited, sizes)
      else
        let visited' := visited ∪ frontier
        let frontier' := (frontier.biUnion g.adj) \ visited'
        traverseAux g fuel visited' frontier' (sizes ++ [frontier'.card])

/-- Embedding of `unchecked_traverse` (_graph.rs lines 332-350). -/
def uncheckedTraverse (g : RefGraph) (start : ℕ) : Finset ℕ × List ℕ :=
  traverseAux g (g.clusters.card + 1) ∅ {start} []

/-- Embedding of `assert_contains` (_graph.rs lines 298-304). -/
def assertContains (g : RefGraph) (c : ℕ) : Except String Unit :=
  if c ∈ g.clusters then Except.ok ()
  else Except.error ("Cluster " ++ toString c ++ " is not in this graph.")

/-- Embedding of the checked `traverse` (_graph.rs lines 355-358): validate
membership, then delegate to the unchecked core. -/
def RefGraph.traverse (g : RefGraph) (start : ℕ) :
    Except String (Finset ℕ × List ℕ) :=
  (assertContains g start).bind (fun _ => Except.ok (uncheckedTraverse g start))

/-- Embedding of `unchecked_eccentricity` (_graph.rs lines 376-378): the
length of the frontier-size sequence recorded by the traversal (the
`frontier_sizes` cache of `with_eccentricities` stores exactly
`unchecked_traverse(c).1`). -/
def uncheckedEccentricity (g : RefGraph) (c : ℕ) : ℕ :=
  (uncheckedTraverse g c).2.length

/-- Embedding of `find_component_clusters` (_graph.rs lines 251-270):
repeatedly pick an unvisited cluster (the `HashSet` iteration order is the
explicit `order` list), traverse from it, record the visited set as a
component and drop it from the unvisited pool. -/
def findComponentsFrom (g : RefGraph) : List ℕ → Finset ℕ → List (Finset ℕ)
  | [], _ => []
  | c :: rest, unvisited =>
      if c ∈ unvisited then
        (uncheckedTraverse g c).1 ::
          findComponentsFrom g rest
            (unvisited.filter (fun x => x ∉ (uncheckedTraverse g c).1))
      else findComponentsFrom g rest unvisited

/-- Embedding of `find_component_clusters` (_graph.rs lines 251-270),
starting from the full cluster set. -/
def findComponentClusters (g : RefGraph) (order : List ℕ) : List (Finset ℕ) :=
  findComponentsFrom g order g.clusters

/-! ### Breadth-first levels -/

/-- The set of clusters within `t` hops of `s` along the adjacency map. -/
def ball (g : RefGraph) (s : ℕ) : ℕ → Finset ℕ
  | 0 => {s}
  | t + 1 => ball g s t ∪ (ball g s t).biUnion g.adj

/-- Reachability along the adjacency map. -/
def Reach (g : RefGraph) (s v : ℕ) : Prop :=
  Relation.ReflTransGen (fun a b => b ∈ g.adj a) s v

/-- Neighbor sets stay inside the cluster set. -/
theorem adj_subset (g : RefGraph) (c : ℕ) : g.adj c ⊆ g.clusters := by
  intro v hv
  simp only [RefGraph.adj, Finset.mem_image, Finset.mem_filter] at hv
  obtain ⟨p, ⟨hp, _⟩, rfl⟩ := hv
  exact (g.hadj p hp).2

/-- Membership in the adjacency map, stated on the pair set. -/
theorem mem_adj_iff (g : RefGraph) (c v : ℕ) :
    v ∈ g.adj c ↔ (c, v) ∈ g.adjPairs := by
  simp only [RefGraph.adj, Finset.mem_image, Finset.mem_filter]
  constructor
  · rintro ⟨⟨p1, p2⟩, ⟨hp, rfl⟩, rfl⟩
    exact hp
  · intro h
    exact ⟨(c, v), ⟨h, rfl⟩, rfl⟩

/-- Balls grow with the hop count. -/
theorem ball_mono_succ (g : RefGraph) (s t : ℕ) :
    ball g s t ⊆ ball g s (t + 1) := by
  intro v hv
  simp only [ball, Finset.mem_union]
  exact Or.inl hv

/-- Balls are monotone in the hop count. -/
theorem ball_mono (g : RefGraph) (s : ℕ) {t u : ℕ} (h : t ≤ u) :
    ball g s t ⊆ ball g s u := by
  induction u with
  | zero =>
      have : t = 0 := Nat.le_zero.mp h
      subst this
      exact subset_rfl
  | succ n ih =>
      rcases Nat.lt_or_ge t (n + 1) with h1 | h1
      · exact (ih (Nat.lt_succ_iff.mp h1)).trans (ball_mono_succ g s n)
      · have : t = n + 1 := le_antisymm h h1
        subst this
        exact subset_rfl

/-- Members of a ball are reachable from its center. -/
theorem mem_ball_reach (g : RefGraph) (s : ℕ) :
    ∀ (t : ℕ) (v : ℕ), v ∈ ball g s t → Reach g s v := by
  intro t
  induction t with
  | zero =>
      intro v hv
      simp only [ball, Finset.mem_singleton] at hv
      subst hv
      exact Relation.ReflTransGen.refl
  | succ n ih =>
      intro v hv
      simp only [ball, Finset.mem_union, Finset.mem_biUnion] at hv
      rcases hv with hv | ⟨u, hu, hv⟩
      · exact ih v hv
      · exact Relation.ReflTransGen.tail (ih u hu) hv

/-- Reachable clusters lie in a sufficiently large ball. -/
theorem reach_mem_ball (g : RefGraph) (s v : ℕ) (h : Reach g s v) :
    ∃ t, v ∈ ball g s t := by
  induction h with
  | refl => exact ⟨0, by simp [ball]⟩
  | tail _ hstep ih =>
      obtain ⟨t, ht⟩ := ih
      refine ⟨t + 1, ?_⟩
      simp only [ball, Finset.mem_union, Finset.mem_biUnion]
      exact Or.inr ⟨_, ht, hstep⟩

/-- Once a ball stops growing it is fixed forever. -/
theorem ball_stab (g : RefGraph) (s t : ℕ) (h : ball g s (t + 1) ⊆ ball g s t) :
    ∀ u, t ≤ u → ball g s u = ball g s t := by
  intro u hu
  induction u with
  | zero =>
      have : t = 0 := Nat.le_zero.mp hu
      subst this
      rfl
  | succ n ih =>
      rcases Nat.lt_or_ge t (n + 1) with h1 | h1
      · have hn : t ≤ n := Nat.lt_succ_iff.mp h1
        have heq : ball g s n = ball g s t := ih hn
        have h2 : ball g s (n + 1) = ball g s (t + 1) := by
          simp only [ball]
          rw [heq]
        have h3 : ball g s (t + 1) = ball g s t :=
          Finset.Subset.antisymm h (ball_mono_succ g s t)
        exact h2.trans h3
      · have : t = n + 1 := le_antisymm hu h1
        subst this
        rfl

/-- Balls around a graph member stay inside the cluster set. -/
theorem ball_subset_clusters (g : RefGraph) (s : ℕ) (hs : s ∈ g.clusters) :
    ∀ t, ball g s t ⊆ g.clusters := by
  intro t
  induction t with
  | zero =>
      intro v hv
      simp only [ball, Finset.mem_singleton] at hv
      subst hv
      exact hs
  | succ n ih =>
      intro v hv
      simp only [ball, Finset.mem_union, Finset.mem_biUnion] at hv
      rcases hv with hv | ⟨u, _, hv⟩
      · exact ih hv
      · exact adj_subset g u hv

/-- Balls stay inside the cluster set with the center added. -/
theorem ball_subset_insert (g : RefGraph) (s : ℕ) :
    ∀ t, ball g s t ⊆ insert s g.clusters := by
  intro t
  induction t with
  | zero =>
      intro v hv
      simp only [ball, Finset.mem_singleton] at hv
      subst hv
      exact Finset.mem_insert_self _ _
  | succ n ih =>
      intro v hv
      simp only [ball, Finset.mem_union, Finset.mem_biUnion] at hv
      rcases hv with hv | ⟨u, _, hv⟩
      · exact ih hv
      · exact Finset.mem_insert_of_mem (adj_subset g u hv)

/-- While no ball has stabilised, ball cardinalities grow linearly. -/
theorem ball_card_lower (g : RefGraph) (s : ℕ) :
    ∀ t, (∀ u, u < t → ¬ ball g s (u + 1) ⊆ ball g s u) →
      t + 1 ≤ (ball g s t).card := by
  intro t
  induction t with
  | zero =>
      intro _
      simp [ball]
  | succ n ih =>
      intro h
      have h1 : n + 1 ≤ (ball g s n).card :=
        ih (fun u hu => h u (Nat.lt_succ_of_lt hu))
      have h2 : ball g s n ⊂ ball g s (n + 1) := by
        refine ⟨ball_mono_succ g s n, ?_⟩
        exact h n (Nat.lt_succ_self n)
      have := Finset.card_lt_card h2
      omega

/-- Every ball sequence stabilises. -/
theorem exists_ball_stab (g : RefGraph) (s : ℕ) :
    ∃ k, ball g s (k + 1) ⊆ ball g s k := by
  by_contra hc
  push_neg at hc
  have h1 := ball_card_lower g s ((insert s g.clusters).card) (fun u _ => hc u)
  have h2 : (ball g s ((insert s g.clusters).card)).card ≤ (insert s g.clusters).card :=
    Finset.card_le_card (ball_subset_insert g s _)
  omega

/-- Modelled from the spec: the number of BFS levels needed to reach all
clusters in `s`'s component, excluding the zeroth/start level — the least
`k` at which the `k`-hop ball has stopped growing (equivalently, by
`levelsNeeded_le_iff`, contains every cluster reachable from `s`). -/
def levelsNeeded (g : RefGraph) (s : ℕ) : ℕ :=
  Nat.find (exists_ball_stab g s)

/-- The ball at `levelsNeeded` has stabilised. -/
theorem levelsNeeded_stab (g : RefGraph) (s : ℕ) :
    ball g s (levelsNeeded g s + 1) ⊆ ball g s (levelsNeeded g s) :=
  Nat.find_spec (exists_ball_stab g s)

/-- No smaller level has stabilised. -/
theorem levelsNeeded_min (g : RefGraph) (s : ℕ) {k : ℕ}
    (h : k < levelsNeeded g s) : ¬ ball g s (k + 1) ⊆ ball g s k :=
  Nat.find_min (exists_ball_stab g s) h

/-- Beyond `levelsNeeded` all balls coincide. -/
theorem ball_eq_of_levelsNeeded_le (g : RefGraph) (s : ℕ) {u : ℕ}
    (h : levelsNeeded g s ≤ u) :
    ball g s u = ball g s (levelsNeeded g s) :=
  ball_stab g s (levelsNeeded g s) (levelsNeeded_stab g s) u h

/-- The stabilised ball is exactly the set of reachable clusters. -/
theorem reach_iff_mem_ball_levelsNeeded (g : RefGraph) (s v : ℕ) :
    Reach g s v ↔ v ∈ ball g s (levelsNeeded g s) := by
  constructor
  · intro h
    obtain ⟨t, ht⟩ := reach_mem_ball g s v h
    rcases Nat.le_total t (levelsNeeded g s) with h1 | h1
    · exact ball_mono g s h1 ht
    · rw [ball_eq_of_levelsNeeded_le g s h1] at ht
      exact ht
  · exact mem_ball_reach g s _ v

/-- `levelsNeeded` is the least hop count whose ball catches every
reachable cluster. -/
theorem levelsNeeded_le_iff (g : RefGraph) (s k : ℕ) :
    levelsNeeded g s ≤ k ↔ ∀ v, Reach g s v → v ∈ ball g s k := by
  constructor
  · intro h v hv
    have := (reach_iff_mem_ball_levelsNeeded g s v).mp hv
    have heq := ball_eq_of_levelsNeeded_le g s h
    rw [heq]
    exact this
  · intro h
    refine Nat.find_min' (exists_ball_stab g s) ?_
    intro v hv
    exact h v (mem_ball_reach g s _ v hv)

/-- With the center in the graph, `levelsNeeded` is below the number of
clusters. -/
theorem levelsNeeded_lt_card (g : RefGraph) (s : ℕ) (hs : s ∈ g.clusters) :
    levelsNeeded g s < g.clusters.card := by
  have h1 := ball_card_lower g s (levelsNeeded g s)
    (fun u hu => levelsNeeded_min g s hu)
  have h2 : (ball g s (levelsNeeded g s)).card ≤ g.clusters.card :=
    Finset.card_le_card (ball_subset_clusters g s hs _)
  omega

/-- One BFS step sends the frontier `ball (t+1) \ ball t` to the frontier
`ball (t+2) \ ball (t+1)`. -/
theorem frontier_step (g : RefGraph) (s t : ℕ) :
    ((ball g s (t + 1) \ ball g s t).biUnion g.adj) \ ball g s (t + 1)
      = ball g s (t + 2) \ ball g s (t + 1) := by
  ext v
  simp only [Finset.mem_sdiff, Finset.mem_biUnion]
  constructor
  · rintro ⟨⟨u, hu, hv⟩, hnot⟩
    refine ⟨?_, hnot⟩
    have hub : u ∈ ball g s (t + 1) := hu.1
    show v ∈ ball g s (t + 1) ∪ (ball g s (t + 1)).biUnion g.adj
    exact Finset.mem_union_right _ (Finset.mem_biUnion.mpr ⟨u, hub, hv⟩)
  · rintro ⟨hv2, hnot⟩
    have hm : v ∈ ball g s (t + 1) ∪ (ball g s (t + 1)).biUnion g.adj := hv2
    rcases Finset.mem_union.mp hm with h | h
    · exact absurd h hnot
    · obtain ⟨u, hu, hv⟩ := Finset.mem_biUnion.mp h
      refine ⟨⟨u, ⟨hu, ?_⟩, hv⟩, hnot⟩
      intro hut
      apply hnot
      show v ∈ ball g s t ∪ (ball g s t).biUnion g.adj
      exact Finset.mem_union_right _ (Finset.mem_biUnion.mpr ⟨u, hut, hv⟩)

/-- Unfolding of one iteration of the traversal loop on a non-empty
frontier. -/
theorem traverseAux_step (g : RefGraph) (fuel : ℕ) (visited frontier : Finset ℕ)
    (sizes : List ℕ) (h : frontier ≠ ∅) :
    traverseAux g (fuel + 1) visited frontier sizes
      = traverseAux g fuel (visited ∪ frontier)
          ((frontier.biUnion g.adj) \ (visited ∪ frontier))
          (sizes ++ [((frontier.biUnion g.adj) \ (visited ∪ frontier)).card]) := by
  rw [traverseAux, if_neg h]

/-- Running the traversal loop from the state reached after `u + 1`
iterations (visited `= ball u`, frontier `= ball (u+1) \ ball u`) finishes
with the stabilised ball as visited set and one recorded frontier width per
remaining level, the final zero-width level included. -/
theorem traverseAux_run (g : RefGraph) (s : ℕ) :
    ∀ (d u fuel : ℕ) (sizes : List ℕ),
      levelsNeeded g s = u + d → d ≤ fuel →
      traverseAux g fuel (ball g s u) (ball g s (u + 1) \ ball g s u) sizes
        = (ball g s (levelsNeeded g s),
           sizes ++ (List.range d).map
             (fun i => (ball g s (u + i + 2) \ ball g s (u + i + 1)).card)) := by
  intro d
  induction d with
  | zero =>
      intro u fuel sizes hK _
      have hstab : ball g s (u + 1) \ ball g s u = ∅ := by
        rw [Finset.sdiff_eq_empty_iff_subset]
        have : u = levelsNeeded g s := by omega
        subst this
        exact levelsNeeded_stab g s
      have hvis : ball g s u = ball g s (levelsNeeded g s) := by
        have : u = levelsNeeded g s := by omega
        rw [this]
      cases fuel with
      | zero => simp [traverseAux, hvis]
      | succ f =>
          rw [traverseAux, if_pos hstab, hvis]
          simp
  | succ d ih =>
      intro u fuel sizes hK hfuel
      obtain ⟨f, rfl⟩ : ∃ f, fuel = f + 1 := ⟨fuel - 1, by omega⟩
      have hne : ball g s (u + 1) \ ball g s u ≠ ∅ := by
        intro hemp
        have hsub : ball g s (u + 1) ⊆ ball g s u :=
          Finset.sdiff_eq_empty_iff_subset.mp hemp
        exact levelsNeeded_min g s (by omega : u < levelsNeeded g s) hsub
      rw [traverseAux_step g f _ _ _ hne]
      have hvis : ball g s u ∪ (ball g s (u + 1) \ ball g s u) = ball g s (u + 1) :=
        Finset.union_sdiff_of_subset (ball_mono_succ g s u)
      rw [hvis, frontier_step g s u]
      rw [ih (u + 1) f (sizes ++ [(ball g s (u + 2) \ ball g s (u + 1)).card])
        (by omega) (by omega)]
      congr 1
      rw [List.append_assoc]
      congr 1
      rw [List.range_succ_eq_map]
      simp only [List.map_cons, List.map_map, List.singleton_append]
      congr 1
      apply List.map_congr_left
      intro a _
      simp only [Function.comp_apply]
      rw [show u + 1 + a = u + (a + 1) from by omega]

/-- Full characterisation of `unchecked_traverse` from a graph member: the
visited set is the stabilised ball around the start and the frontier-size
list records the sizes of the successive BFS levels `1, …, levelsNeeded + 1`
(the last recorded level is the empty frontier that stops the loop). -/
theorem uncheckedTraverse_spec (g : RefGraph) (s : ℕ) (hs : s ∈ g.clusters) :
    uncheckedTraverse g s
      = (ball g s (levelsNeeded g s),
         (List.range (levelsNeeded g s + 1)).map
           (fun i => (ball g s (i + 1) \ ball g s i).card)) := by
  have hne : ({s} : Finset ℕ) ≠ ∅ := Finset.singleton_ne_empty s
  unfold uncheckedTraverse
  rw [traverseAux_step g g.clusters.card ∅ {s} [] hne]
  have h2 : (({s} : Finset ℕ).biUnion g.adj) \ (∅ ∪ {s})
      = ball g s 1 \ ball g s 0 := by
    ext v
    simp only [ball, Finset.mem_sdiff, Finset.mem_union, Finset.mem_biUnion,
      Finset.mem_singleton, Finset.not_mem_empty, false_or]
    constructor
    · rintro ⟨⟨u, hu, hv⟩, hns⟩
      exact ⟨Or.inr ⟨u, hu, hv⟩, hns⟩
    · rintro ⟨h | h, hns⟩
      · exact absurd h hns
      · exact ⟨h, hns⟩
  have h1 : (∅ ∪ ({s} : Finset ℕ)) = ball g s 0 := by
    simp [ball]
  rw [h2, h1]
  rw [traverseAux_run g s (levelsNeeded g s) 0 g.clusters.card _ (by omega)
    (le_of_lt (levelsNeeded_lt_card g s hs))]
  congr 1
  rw [List.range_succ_eq_map]
  simp only [List.map_cons, List.map_map, List.nil_append, List.singleton_append]
  congr 1
  apply List.map_congr_left
  intro a _
  simp only [Function.comp_apply]
  rw [show (0 : ℕ) + a + 2 = a + 1 + 1 from by omega,
    show (0 : ℕ) + a + 1 = a + 1 from by omega]

/-- The visited set of a traversal from a member is the set of clusters
reachable from it. -/
theorem mem_visited_iff_reach (g : RefGraph) (s v : ℕ) (hs : s ∈ g.clusters) :
    v ∈ (uncheckedTraverse g s).1 ↔ Reach g s v := by
  rw [uncheckedTraverse_spec g s hs]
  exact (reach_iff_mem_ball_levelsNeeded g s v).symm

/-- The recorded eccentricity is the stabilisation level plus one. -/
theorem uncheckedEccentricity_eq (g : RefGraph) (s : ℕ) (hs : s ∈ g.clusters) :
    uncheckedEccentricity g s = levelsNeeded g s + 1 := by
  rw [uncheckedEccentricity, uncheckedTraverse_spec g s hs]
  simp

/-! ### Concrete reference graphs for witnesses and counterexamples -/

/-- A reference graph with a single isolated cluster. -/
def singletonRefGraph : RefGraph :=
  ⟨{0}, ∅, by decide⟩

/-- A reference graph with two clusters joined by one edge. -/
def pathRefGraph : RefGraph :=
  ⟨{0, 1}, {(0, 1), (1, 0)}, by decide⟩

/-! ## Claims C2 and C9 -/

/-- Claim C2, as stated, is false: the traversal loop pushes the size of
every new frontier including the final empty one, so the frontier-width
sequence of an isolated cluster has length 1, not 0, and `eccentricity`
returns 1 where the claim demands 0. -/
theorem claim_C2_counterexample :
    uncheckedEccentricity singletonRefGraph 0 = 1 ∧
    levelsNeeded singletonRefGraph 0 = 0 ∧ (1 : ℕ) ≠ 0 := by
  refine ⟨?_, ?_, one_ne_zero⟩
  · decide
  · rw [levelsNeeded, Nat.find_eq_zero]
    decide

/-- Claim C2 (amended): `eccentricity(n)` equals the length of `n`'s
frontier-width sequence, and that length equals the number of BFS levels
needed to reach all clusters reachable from `n` (its component) PLUS ONE,
because the level sequence ends with the empty frontier that stops the
loop: an isolated cluster has eccentricity 1 and a two-cluster path has
eccentricity 2.  The last conjunct identifies `levelsNeeded` with the least
hop count whose ball contains everything reachable from `n`. -/
theorem claim_C2_amended (g : RefGraph) (n : ℕ) (hn : n ∈ g.clusters) :
    uncheckedEccentricity g n = (uncheckedTraverse g n).2.length ∧
    uncheckedEccentricity g n = levelsNeeded g n + 1 ∧
    (∀ k, levelsNeeded g n ≤ k ↔ ∀ v, Reach g n v → v ∈ ball g n k) := by
  refine ⟨rfl, uncheckedEccentricity_eq g n hn, fun k => levelsNeeded_le_iff g n k⟩

/-- Witness for `claim_C2_amended` on the two-cluster path graph. -/
theorem claim_C2_amended_witness :
    uncheckedEccentricity pathRefGraph 0 = (uncheckedTraverse pathRefGraph 0).2.length ∧
    uncheckedEccentricity pathRefGraph 0 = levelsNeeded pathRefGraph 0 + 1 ∧
    (∀ k, levelsNeeded pathRefGraph 0 ≤ k ↔
      ∀ v, Reach pathRefGraph 0 v → v ∈ ball pathRefGraph 0 k) :=
  claim_C2_amended pathRefGraph 0 (by decide)

/-- Claim C9: the checked `traverse` entry point fails with the descriptive
"is not in this graph" error exactly when `start` is not a member, and on a
member it returns exactly the unchecked core's result. -/
theorem claim_C9_traverse (g : RefGraph) (s : ℕ) :
    (RefGraph.traverse g s
        = Except.error ("Cluster " ++ toString s ++ " is not in this graph.")
      ↔ s ∉ g.clusters) ∧
    (RefGraph.traverse g s = Except.ok (uncheckedTraverse g s) ↔ s ∈ g.clusters) := by
  by_cases h : s ∈ g.clusters
  · have hok : RefGraph.traverse g s = Except.ok (uncheckedTraverse g s) := by
      simp [RefGraph.traverse, assertContains, if_pos h, Except.bind]
    rw [hok]
    constructor
    · simp [h]
    · simp [h]
  · have herr : RefGraph.traverse g s
        = Except.error ("Cluster " ++ toString s ++ " is not in this graph.") := by
      simp [RefGraph.traverse, assertContains, if_neg h, Except.bind]
    rw [herr]
    constructor
    · simp [h]
    · simp [h]

/-- A constructed graph keeps its cluster set. -/
theorem refGraphNew_clusters (C : Finset ℕ) (edges : List (ℕ × ℕ × ℚ))
    (g : RefGraph) (h : refGraphNew C edges = some g) : g.clusters = C := by
  unfold refGraphNew at h
  split_ifs at h
  obtain rfl := Option.some.inj h
  rfl

/-- `Graph::new` inserts both directions of every edge, so the adjacency
pairs of a constructed graph are symmetric. -/
theorem refGraphNew_symm (C : Finset ℕ) (edges : List (ℕ × ℕ × ℚ))
    (g : RefGraph) (h : refGraphNew C edges = some g) :
    ∀ a b, (a, b) ∈ g.adjPairs → (b, a) ∈ g.adjPairs := by
  unfold refGraphNew at h
  split_ifs at h
  obtain rfl := Option.some.inj h
  intro a b hab
  simp only [Finset.mem_union, List.mem_toFinset, List.mem_map] at hab ⊢
  rcases hab with ⟨e, he, heq⟩ | ⟨e, he, heq⟩
  · obtain ⟨h1, h2⟩ := Prod.mk.injEq .. ▸ heq
    exact Or.inr ⟨e, he, by simp_all⟩
  · obtain ⟨h1, h2⟩ := Prod.mk.injEq .. ▸ heq
    exact Or.inl ⟨e, he, by simp_all⟩

/-- Reachability is symmetric on a graph with symmetric adjacency pairs. -/
theorem reach_symm (g : RefGraph)
    (hsym : ∀ a b, (a, b) ∈ g.adjPairs → (b, a) ∈ g.adjPairs)
    {a b : ℕ} (h : Reach g a b) : Reach g b a := by
  have hstep : Symmetric (fun a b : ℕ => b ∈ g.adj a) := by
    intro x y hxy
    rw [mem_adj_iff] at hxy ⊢
    exact hsym x y hxy
  exact Relation.ReflTransGen.symmetric hstep h

/-- Reachability stays inside the cluster set. -/
theorem reach_subset_clusters (g : RefGraph) {x v : ℕ} (hx : x ∈ g.clusters)
    (h : Reach g x v) : v ∈ g.clusters := by
  induction h with
  | refl => exact hx
  | tail _ hstep ih => exact adj_subset g _ hstep

/-- The checked traversal succeeds on a member and returns the unchecked
core's result. -/
theorem traverse_ok_of_mem (g : RefGraph) (s : ℕ) (hs : s ∈ g.clusters) :
    RefGraph.traverse g s = Except.ok (uncheckedTraverse g s) := by
  simp [RefGraph.traverse, assertContains, if_pos hs, Except.bind]

/-- Every member of a list of finsets is contained in their union. -/
theorem mem_subset_foldr_union :
    ∀ (l : List (Finset ℕ)) (x : Finset ℕ), x ∈ l →
      x ⊆ l.foldr (· ∪ ·) ∅ := by
  intro l
  induction l with
  | nil => intro x hx; simp at hx
  | cons y ys ih =>
      intro x hx
      rcases List.mem_cons.mp hx with rfl | hx
      · intro v hv
        exact Finset.mem_union_left _ hv
      · intro v hv
        exact Finset.mem_union_right _ (ih x hx hv)

/-- Full specification of the component-extraction loop: on a
reach-closed unvisited pool covered by the pick order, it returns
traversal-visited sets of pool members that are pairwise disjoint and
whose union is exactly the pool. -/
theorem findComponentsFrom_spec (g : RefGraph)
    (hsym : ∀ a b, (a, b) ∈ g.adjPairs → (b, a) ∈ g.adjPairs) :
    ∀ (order : List ℕ) (unvisited : Finset ℕ),
      unvisited ⊆ g.clusters →
      (∀ x ∈ unvisited, ∀ v, Reach g x v → v ∈ unvisited) →
      (∀ x ∈ unvisited, x ∈ order) →
      (∀ comp ∈ findComponentsFrom g order unvisited,
         ∃ c ∈ unvisited, comp = (uncheckedTraverse g c).1) ∧
      List.Pairwise (fun s1 s2 => Disjoint s1 s2)
        (findComponentsFrom g order unvisited) ∧
      (findComponentsFrom g order unvisited).foldr (· ∪ ·) ∅ = unvisited := by
  intro order
  induction order with
  | nil =>
      intro unvisited hUV hcl hord
      have hemp : unvisited = ∅ := by
        rw [Finset.eq_empty_iff_forall_not_mem]
        intro x hx
        simpa using hord x hx
      subst hemp
      refine ⟨?_, ?_, ?_⟩ <;> simp [findComponentsFrom]
  | cons o rest ih =>
      intro unvisited hUV hcl hord
      by_cases ho : o ∈ unvisited
      · have hocl : o ∈ g.clusters := hUV ho
        have hcomp_iff : ∀ v, v ∈ (uncheckedTraverse g o).1 ↔ Reach g o v :=
          fun v => mem_visited_iff_reach g o v hocl
        have hcomp_sub : (uncheckedTraverse g o).1 ⊆ unvisited := by
          intro v hv
          exact hcl o ho v ((hcomp_iff v).mp hv)
        have hforward :
            findComponentsFrom g (o :: rest) unvisited
              = (uncheckedTraverse g o).1 ::
                findComponentsFrom g rest
                  (unvisited.filter (fun x => x ∉ (uncheckedTraverse g o).1)) := by
          rw [findComponentsFrom, if_pos ho]
        have hUV2 : unvisited.filter (fun x => x ∉ (uncheckedTraverse g o).1)
            ⊆ g.clusters := fun x hx => hUV (Finset.mem_of_mem_filter x hx)
        have hcl2 : ∀ x ∈ unvisited.filter (fun x => x ∉ (uncheckedTraverse g o).1),
            ∀ v, Reach g x v →
              v ∈ unvisited.filter (fun x => x ∉ (uncheckedTraverse g o).1) := by
          intro x hx v hxv
          obtain ⟨hxu, hxnc⟩ := Finset.mem_filter.mp hx
          refine Finset.mem_filter.mpr ⟨hcl x hxu v hxv, ?_⟩
          intro hvc
          apply hxnc
          rw [hcomp_iff] at hvc ⊢
          exact Relation.ReflTransGen.trans hvc (reach_symm g hsym hxv)
        have hord2 : ∀ x ∈ unvisited.filter (fun x => x ∉ (uncheckedTraverse g o).1),
            x ∈ rest := by
          intro x hx
          obtain ⟨hxu, hxnc⟩ := Finset.mem_filter.mp hx
          rcases List.mem_cons.mp (hord x hxu) with rfl | h
          · exact absurd ((hcomp_iff x).mpr Relation.ReflTransGen.refl) hxnc
          · exact h
        have := ih _ hUV2 hcl2 hord2
        obtain ⟨iha, ihb, ihc⟩ := this
        rw [hforward]
        refine ⟨?_, ?_, ?_⟩
        · intro comp hcomp
          rcases List.mem_cons.mp hcomp with rfl | h
          · exact ⟨o, ho, rfl⟩
          · obtain ⟨c, hc, rfl⟩ := iha comp h
            exact ⟨c, Finset.mem_of_mem_filter c hc, rfl⟩
        · constructor
          · intro comp' hcomp'
            have hsub' := mem_subset_foldr_union _ comp' hcomp'
            rw [ihc] at hsub'
            rw [Finset.disjoint_left]
            intro a ha hacomp'
            have hmem2 := hsub' hacomp'
            obtain ⟨_, hanot⟩ := Finset.mem_filter.mp hmem2
            exact hanot ha
          · exact ihb
        · show (uncheckedTraverse g o).1 ∪ _ = unvisited
          rw [ihc]
          ext x
          simp only [Finset.mem_union, Finset.mem_filter]
          constructor
          · rintro (h | ⟨h, _⟩)
            · exact hcomp_sub h
            · exact h
          · intro hx
            by_cases hxc : x ∈ (uncheckedTraverse g o).1
            · exact Or.inl hxc
            · exact Or.inr ⟨hx, hxc⟩
      · rw [findComponentsFrom, if_neg ho]
        refine ih unvisited hUV hcl ?_
        intro x hx
        rcases List.mem_cons.mp (hord x hx) with rfl | h
        · exact absurd hx ho
        · exact h

/-- Claim C7: for a reference graph built by `Graph::new` from candidate set
`C` (and any `HashSet` pick order covering the clusters), the components
returned by `find_component_clusters` are pairwise disjoint, their union has
size `|C|`, and for every cluster `n` of a component, the checked `traverse`
from `n` succeeds with a visited set of exactly that component's size. -/
theorem claim_C7_components (C : Finset ℕ) (edges : List (ℕ × ℕ × ℚ))
    (g : RefGraph) (hbuild : refGraphNew C edges = some g) (order : List ℕ)
    (hord : ∀ x ∈ g.clusters, x ∈ order) :
    List.Pairwise (fun s1 s2 => Disjoint s1 s2) (findComponentClusters g order) ∧
    ((findComponentClusters g order).foldr (· ∪ ·) ∅).card = C.card ∧
    (∀ comp ∈ findComponentClusters g order, ∀ n ∈ comp,
      ∃ pair, RefGraph.traverse g n = Except.ok pair ∧ pair.1.card = comp.card) := by
  have hsym := refGraphNew_symm C edges g hbuild
  have hcls := refGraphNew_clusters C edges g hbuild
  have hspec := findComponentsFrom_spec g hsym order g.clusters subset_rfl
    (fun x hx v hxv => reach_subset_clusters g hx hxv) hord
  obtain ⟨ha, hb, hc⟩ := hspec
  refine ⟨hb, ?_, ?_⟩
  · rw [show findComponentClusters g order = findComponentsFrom g order g.clusters
      from rfl, hc, hcls]
  · intro comp hcomp n hn
    obtain ⟨c, hcu, rfl⟩ := ha comp hcomp
    have hccl : c ∈ g.clusters := hcu
    have hreach_cn : Reach g c n := (mem_visited_iff_reach g c n hccl).mp hn
    have hncl : n ∈ g.clusters := reach_subset_clusters g hccl hreach_cn
    refine ⟨uncheckedTraverse g n, traverse_ok_of_mem g n hncl, ?_⟩
    have hset : (uncheckedTraverse g n).1 = (uncheckedTraverse g c).1 := by
      ext v
      rw [mem_visited_iff_reach g n v hncl, mem_visited_iff_reach g c v hccl]
      constructor
      · intro h
        exact Relation.ReflTransGen.trans hreach_cn h
      · intro h
        exact Relation.ReflTransGen.trans (reach_symm g hsym hreach_cn) h
    rw [hset]

/-- The two-cluster path graph is the result of `Graph::new` on clusters
`{0, 1}` and a single edge. -/
theorem refGraphNew_path : refGraphNew {0, 1} [(0, 1, 1)] = some pathRefGraph := by
  rw [refGraphNew, if_neg (by decide), dif_pos (by decide)]
  congr 1

/-- Witness for `claim_C7_components` on the concrete two-cluster path
graph with pick order `[0, 1]`. -/
theorem claim_C7_components_witness :
    List.Pairwise (fun s1 s2 => Disjoint s1 s2)
      (findComponentClusters pathRefGraph [0, 1]) ∧
    ((findComponentClusters pathRefGraph [0, 1]).foldr (· ∪ ·) ∅).card
      = ({0, 1} : Finset ℕ).card ∧
    (∀ comp ∈ findComponentClusters pathRefGraph [0, 1], ∀ n ∈ comp,
      ∃ pair, RefGraph.traverse pathRefGraph n = Except.ok pair ∧
        pair.1.card = comp.card) :=
  claim_C7_components {0, 1} [(0, 1, 1)] pathRefGraph refGraphNew_path [0, 1]
    (by decide)

/-! ## The compact Graph of the anomaly pipeline (chaoda/graph.rs)

An `OddBall` cluster is represented by the record of the fields this code
reads (`offset`, `cardinality`, `arg_center`, `radius`,
`accumulated_cp_car_ratio`, `ratios`); the dataset metric
`distance_to_other` is a function parameter.  Rust `f32` feature values are
carried as rationals (they are only stored and copied here; the stationary
probabilities below perform ideal rational arithmetic in place of `f32`
arithmetic, which the claims under study never exercise numerically). -/
structure OddBallData where
  /-- Tree offset of the cluster. -/
  offset : ℕ
  /-- Number of points in the cluster. -/
  cardinality : ℕ
  /-- Index of the cluster's center point. -/
  argCenter : ℕ
  /-- Radius of the cluster. -/
  radius : ℚ
  /-- Accumulated child-parent cardinality ratio. -/
  accCpCarRatio : ℚ
  /-- Ratio feature vector. -/
  ratios : List ℚ
  deriving DecidableEq, Repr

/-- Embedding of `Component` (chaoda/graph.rs lines 254-273) with its
eagerly-built fields; the lazily cached fields (`eccentricities`,
`diameter`, `neighborhood_sizes`) are memoized pure functions of these and
are embedded as the functions that compute them. -/
structure CComp where
  /-- The `(offset, cardinality, arg_center)` triples of the members. -/
  clusters : List (ℕ × ℕ × ℕ)
  /-- The index-based adjacency list with distances. -/
  adjacencyList : List (List (ℕ × ℚ))
  /-- Total number of points. -/
  population : ℕ
  /-- The accumulated child-parent cardinality ratio of each member. -/
  accCpCarRatios : List ℚ
  /-- The anomaly properties (ratio vectors) of each member. -/
  anomalyProps : List (List ℚ)
  deriving DecidableEq, Repr

/-- Embedding of `Component::cardinality` (chaoda/graph.rs lines 445-447). -/
def CComp.cardinality (c : CComp) : ℕ :=
  c.clusters.length

/-- Embedding of `Component::new` (chaoda/graph.rs lines 277-318): full
pairwise ball-overlap test building the adjacency list, plus the copied
per-member data. -/
def CComp.new (dist : OddBallData → OddBallData → ℚ) (cs : List OddBallData) :
    CComp where
  clusters := cs.map (fun c => (c.offset, c.cardinality, c.argCenter))
  adjacencyList :=
    cs.enum.map (fun ic =>
      (cs.enum.filter (fun jc => jc.1 ≠ ic.1)).filterMap (fun jc =>
        if dist ic.2 jc.2 ≤ ic.2.radius + jc.2.radius then
          some (jc.1, dist ic.2 jc.2)
        else none))
  population := (cs.map (fun c => c.cardinality)).sum
  accCpCarRatios := cs.map (fun c => c.accCpCarRatio)
  anomalyProps := cs.map (fun c => c.ratios)

/-- Embedding of `Component::is_empty` (chaoda/graph.rs lines 425-427). -/
def CComp.isEmptyC (c : CComp) : Bool :=
  c.clusters.isEmpty

/-- One row of the raw transition matrix of
`compute_stationary_probabilities` (chaoda/graph.rs lines 524-529): entry
`(i, j)` is the reciprocal distance of the last adjacency entry of `i`
naming `j`, `0` when there is none. -/
def transitionRow (c : CComp) (i : ℕ) : List ℚ :=
  (List.range c.cardinality).map (fun j =>
    match (c.adjacencyList.getD i []).reverse.find? (fun p => p.1 = j) with
    | some p => p.2⁻¹
    | none => 0)

/-- The raw transition matrix. -/
def transitionMatrix (c : CComp) : List (List ℚ) :=
  (List.range c.cardinality).map (transitionRow c)

/-- Row normalisation (chaoda/graph.rs lines 534-538): divide every entry by
its row's sum. -/
def normalizeRows (m : List (List ℚ)) : List (List ℚ) :=
  m.map (fun row => row.map (fun x => x / row.sum))

/-- Square-matrix product (the `ndarray` `dot` of chaoda/graph.rs line
542). -/
def matMul (a b : List (List ℚ)) : List (List ℚ) :=
  a.map (fun row =>
    (List.range row.length).map (fun j =>
      ((row.zip (b.map (fun r => r.getD j 0))).map (fun p => p.1 * p.2)).sum))

/-- Repeated self-multiplication (chaoda/graph.rs lines 541-543). -/
def iterSquare : ℕ → List (List ℚ) → List (List ℚ)
  | 0, m => m
  | n + 1, m => iterSquare n (matMul m m)

/-- Embedding of `Component::compute_stationary_probabilities`
(chaoda/graph.rs lines 517-547): a singleton component is special-cased to
`[0.0]` before any matrix is built; otherwise build the reciprocal-distance
transition matrix, row-normalise it, square it `num_steps` times and return
the row sums. -/
def CComp.computeStationaryProbabilities (c : CComp) (numSteps : ℕ) :
    List ℚ :=
  if c.cardinality = 1 then [0]
  else
    (iterSquare numSteps (normalizeRows (transitionMatrix c))).map List.sum

/-- Claim C8: a singleton component reports stationary probabilities
`[0.0]` for every number of steps, by the explicit special case taken
before any transition matrix is constructed. -/
theorem claim_C8_singleton (c : CComp) (h : c.cardinality = 1) (numSteps : ℕ) :
    c.computeStationaryProbabilities numSteps = [0] := by
  rw [CComp.computeStationaryProbabilities, if_pos h]

/-- Witness for `claim_C8_singleton` on a concrete singleton component
built by `Component::new`. -/
theorem claim_C8_singleton_witness :
    (CComp.new (fun _ _ => 1) [⟨0, 5, 0, 1, 1, []⟩]).computeStationaryProbabilities 7
      = [0] :=
  claim_C8_singleton (CComp.new (fun _ _ => 1) [⟨0, 5, 0, 1, 1, []⟩]) (by decide) 7

/-! ### Neighborhood sizes (claim C1) -/

/-- Embedding of the filter
`self.adjacency_list[i].iter().filter(|(j, _)| !visited[*j])`
(chaoda/graph.rs lines 500-503): keep the entries whose target is
unvisited; indexing `visited` out of range is a Rust panic, modelled as
`none`. -/
def filterUnvisited (visited : List Bool) : List (ℕ × ℚ) → Option (List (ℕ × ℚ))
  | [] => some []
  | p :: ps => do
      let b ← visited.get? p.1
      let r ← filterUnvisited visited ps
      pure (if b then r else p :: r)

/-- Fuel-indexed embedding of the loop of `compute_neighborhood_sizes`
(chaoda/graph.rs lines 491-515): pop an index from the stack (the Rust
`Vec` pops from its end; the model keeps the top at the head, so `extend`
prepends the reversed new entries), skip it if visited, otherwise mark it,
record the number of its not-yet-visited neighbors and push them.  Index
panics and fuel exhaustion are `none`; `cnsFuel` below is proved
sufficient. -/
def cnsLoop (adj : List (List (ℕ × ℚ))) :
    ℕ → List Bool → List ℕ → List ℕ → Option (List ℕ × List Bool)
  | _, visited, [], out => some (out, visited)
  | 0, _, _ :: _, _ => none
  | fuel + 1, visited, i :: stack, out => do
      let b ← visited.get? i
      if b then cnsLoop adj fuel visited stack out
      else
        let visited' := visited.set i true
        let adjI ← adj.get? i
        let newNb ← filterUnvisited visited' adjI
        cnsLoop adj fuel visited' ((newNb.map Prod.fst).reverse ++ stack)
          (out ++ [newNb.length])

/-- Running cumulative sum with accumulator (the Rust
`scan(0, |acc, x| { *acc += x; Some(*acc) })` of chaoda/graph.rs lines
508-514). -/
def cumSumFrom (acc : ℕ) : List ℕ → List ℕ
  | [] => []
  | x :: xs => (acc + x) :: cumSumFrom (acc + x) xs

/-- The running cumulative sum of a list. -/
def cumSum (l : List ℕ) : List ℕ :=
  cumSumFrom 0 l

/-- Fuel sufficient for the traversal loop: every iteration either pops a
visited index or marks a new one, so the iteration count is bounded by the
initial stack size plus the total adjacency length plus the number of
members. -/
def cnsFuel (c : CComp) : ℕ :=
  1 + c.cardinality + (c.adjacencyList.map List.length).sum

/-- Embedding of `compute_neighborhood_sizes` (chaoda/graph.rs lines
491-515). -/
def CComp.computeNeighborhoodSizes (c : CComp) (i : ℕ) : Option (List ℕ) :=
  (cnsLoop c.adjacencyList (cnsFuel c)
      (List.replicate c.cardinality false) [i] []).map (fun r => cumSum r.1)

/-- Embedding of `neighborhood_sizes` (chaoda/graph.rs lines 476-488): the
memoized per-member sequences, one per member index. -/
def CComp.neighborhoodSizes (c : CComp) : Option (List (List ℕ)) :=
  (List.range c.cardinality).mapM c.computeNeighborhoodSizes

/-- Targets of the adjacency entries of index `i`. -/
def adjC (adj : List (List (ℕ × ℚ))) (i : ℕ) : List ℕ :=
  (adj.getD i []).map Prod.fst

/-- The set of indices within `t` hops of `s` along a compact adjacency
list. -/
def ballC (adj : List (List (ℕ × ℚ))) (s : ℕ) : ℕ → Finset ℕ
  | 0 => {s}
  | t + 1 => ballC adj s t ∪ (ballC adj s t).biUnion (fun u => (adjC adj u).toFinset)

/-- Reachability along a compact adjacency list. -/
def ReachC (adj : List (List (ℕ × ℚ))) (s v : ℕ) : Prop :=
  Relation.ReflTransGen (fun a b => b ∈ adjC adj a) s v

/-- A concrete three-member component in which every pair overlaps (a
triangle); `triangleComp_eq_new` checks it is exactly what `Component::new`
builds from three overlapping unit balls. -/
def triangleComp : CComp where
  clusters := [(0, 1, 0), (1, 1, 1), (2, 1, 2)]
  adjacencyList := [[(1, 1), (2, 1)], [(0, 1), (2, 1)], [(0, 1), (1, 1)]]
  population := 3
  accCpCarRatios := [1, 1, 1]
  anomalyProps := [[], [], []]

/-- The triangle component is the output of `Component::new` on three unit
balls at pairwise distance 1. -/
theorem triangleComp_eq_new :
    CComp.new (fun _ _ => 1)
        [⟨0, 1, 0, 1, 1, []⟩, ⟨1, 1, 1, 1, 1, []⟩, ⟨2, 1, 2, 1, 1, []⟩]
      = triangleComp := by
  have h12 : (1 : ℚ) ≤ 1 + 1 := by norm_num
  simp [CComp.new, triangleComp, List.enum, List.enumFrom, List.filter,
    List.filterMap, h12]

/-- Claim C1, as stated, is false: on the triangle component the sequence
returned for member 0 is `[2, 3, 3]`, but the nodes reachable within any
number of hops number at most 3 including the start (so at most 2 besides
it): entry 0 is 2 while only 1 node (the start) is within 0 hops, and entry
1 is 3 while only 2 distinct new nodes exist within 2 hops — the
stack-based traversal double-counts node 1, once from node 0 and once from
node 2. -/
theorem claim_C1_counterexample :
    CComp.computeNeighborhoodSizes triangleComp 0 = some [2, 3, 3] ∧
    (([2, 3, 3] : List ℕ).getD 0 0 = 2 ∧
      (ballC triangleComp.adjacencyList 0 0).card = 1 ∧ (2 : ℕ) ≠ 1) ∧
    (([2, 3, 3] : List ℕ).getD 1 0 = 3 ∧
      (ballC triangleComp.adjacencyList 0 2).card - 1 = 2 ∧ (3 : ℕ) ≠ 2) := by
  refine ⟨?_, ⟨rfl, by decide, by decide⟩, ⟨rfl, by decide, by decide⟩⟩
  decide

/-! ### Helper lemmas for the stack traversal -/

/-- Cumulative sums have the length of their input. -/
theorem cumSumFrom_length (acc : ℕ) :
    ∀ l : List ℕ, (cumSumFrom acc l).length = l.length := by
  intro l
  induction l generalizing acc with
  | nil => rfl
  | cons x xs ih => simp [cumSumFrom, ih]

/-- Every cumulative sum dominates its starting accumulator. -/
theorem cumSumFrom_le (acc : ℕ) :
    ∀ l : List ℕ, ∀ y ∈ cumSumFrom acc l, acc ≤ y := by
  intro l
  induction l generalizing acc with
  | nil => intro y hy; simp [cumSumFrom] at hy
  | cons x xs ih =>
      intro y hy
      rcases List.mem_cons.mp hy with rfl | hy
      · omega
      · have := ih (acc + x) y hy
        omega

/-- Cumulative sums are non-decreasing. -/
theorem cumSumFrom_sorted (acc : ℕ) :
    ∀ l : List ℕ, List.Sorted (· ≤ ·) (cumSumFrom acc l) := by
  intro l
  induction l generalizing acc with
  | nil => exact List.sorted_nil
  | cons x xs ih =>
      refine List.sorted_cons.mpr ⟨?_, ih (acc + x)⟩
      intro y hy
      exact cumSumFrom_le (acc + x) xs y hy

/-- `get?` agrees with `getD` inside the bounds. -/
theorem get?_eq_some_getD (l : List Bool) (i : ℕ) (h : i < l.length) :
    l.get? i = some (l.getD i false) := by
  rw [List.getD_eq_getElem?_getD, List.get?_eq_getElem?]
  cases hx : l[i]? with
  | none =>
      rw [List.getElem?_eq_none_iff] at hx
      omega
  | some b => rfl

/-- Specification of the unvisited-neighbor filter. -/
theorem filterUnvisited_spec (visited : List Bool) :
    ∀ l : List (ℕ × ℚ), (∀ p ∈ l, p.1 < visited.length) →
      ∃ r, filterUnvisited visited l = some r ∧ r.length ≤ l.length ∧
        (∀ p ∈ r, p ∈ l ∧ visited.getD p.1 false = false) ∧
        (∀ p ∈ l, visited.getD p.1 false = false → p ∈ r) := by
  intro l
  induction l with
  | nil =>
      intro _
      exact ⟨[], rfl, le_rfl, by simp, by simp⟩
  | cons p ps ih =>
      intro hb
      obtain ⟨r, hr, hrlen, hrmem, hrcomp⟩ := ih (fun q hq => hb q (List.mem_cons_of_mem _ hq))
      have hp : p.1 < visited.length := hb p (List.mem_cons_self _ _)
      have hget := get?_eq_some_getD visited p.1 hp
      by_cases hv : visited.getD p.1 false = true
      · refine ⟨r, ?_, by simpa using Nat.le_succ_of_le hrlen, ?_, ?_⟩
        · simp only [filterUnvisited, hget, Option.bind_eq_bind, Option.some_bind, hr, hv]
          simp
        · intro q hq
          obtain ⟨hq1, hq2⟩ := hrmem q hq
          exact ⟨List.mem_cons_of_mem _ hq1, hq2⟩
        · intro q hq hqv
          rcases List.mem_cons.mp hq with rfl | hq
          · rw [hqv] at hv
            exact absurd hv (by simp)
          · exact hrcomp q hq hqv
      · have hvf : visited.getD p.1 false = false := by
          cases h : visited.getD p.1 false
          · rfl
          · exact absurd h hv
        refine ⟨p :: r, ?_, by simpa using hrlen, ?_, ?_⟩
        · simp only [filterUnvisited, hget, Option.bind_eq_bind, Option.some_bind, hr, hvf]
          simp
        · intro q hq
          rcases List.mem_cons.mp hq with rfl | hq
          · exact ⟨List.mem_cons_self _ _, hvf⟩
          · obtain ⟨hq1, hq2⟩ := hrmem q hq
            exact ⟨List.mem_cons_of_mem _ hq1, hq2⟩
        · intro q hq hqv
          rcases List.mem_cons.mp hq with rfl | hq
          · exact List.mem_cons_self _ _
          · exact List.mem_cons_of_mem _ (hrcomp q hq hqv)

/-- Setting a fresh `true` bumps the `true` count by one. -/
theorem count_set_true :
    ∀ (l : List Bool) (i : ℕ), l.get? i = some false →
      (l.set i true).count true = l.count true + 1 := by
  intro l
  induction l with
  | nil => intro i h; simp at h
  | cons b bs ih =>
      intro i h
      cases i with
      | zero =>
          obtain rfl : b = false := by simpa using h
          simp [List.count_cons]
      | succ n =>
          have hn : bs.get? n = some false := by simpa using h
          simp only [List.set, List.count_cons, ih n hn]
          omega

/-- `getD` after `set` at the written index. -/
theorem getD_set_self (l : List Bool) (i : ℕ) (h : i < l.length) (b : Bool) :
    (l.set i b).getD i false = b := by
  rw [List.getD_eq_getElem?_getD, List.getElem?_set_self (by omega)]
  rfl

/-- `getD` after `set` at another index. -/
theorem getD_set_ne (l : List Bool) (i j : ℕ) (hne : j ≠ i) (b : Bool) :
    (l.set i b).getD j false = l.getD j false := by
  rw [List.getD_eq_getElem?_getD, List.getD_eq_getElem?_getD,
    List.getElem?_set_ne (fun h => hne h.symm)]

/-- Total adjacency length still owed by unvisited indices: the potential
that bounds the remaining traversal work. -/
def sumUnvisited (adj : List (List (ℕ × ℚ))) (visited : List Bool) : ℕ :=
  ∑ j ∈ (Finset.range adj.length).filter
      (fun j => visited.getD j false = false), (adj.getD j []).length

/-- Marking an unvisited index pays out exactly its adjacency length from
the potential. -/
theorem sumUnvisited_set (adj : List (List (ℕ × ℚ))) (visited : List Bool)
    (i : ℕ) (hi : i < adj.length) (hiv : i < visited.length)
    (hfalse : visited.getD i false = false) :
    sumUnvisited adj (visited.set i true) + (adj.getD i []).length
      = sumUnvisited adj visited := by
  have hset : (Finset.range adj.length).filter
      (fun j => (visited.set i true).getD j false = false)
      = ((Finset.range adj.length).filter
          (fun j => visited.getD j false = false)).erase i := by
    ext j
    simp only [Finset.mem_erase, Finset.mem_filter, Finset.mem_range]
    by_cases hji : j = i
    · subst hji
      rw [getD_set_self visited j hiv true]
      simp
    · rw [getD_set_ne visited i j hji true]
      tauto
  have hmem : i ∈ (Finset.range adj.length).filter
      (fun j => visited.getD j false = false) := by
    simp only [Finset.mem_filter, Finset.mem_range]
    exact ⟨hi, hfalse⟩
  rw [sumUnvisited, hset, sumUnvisited]
  exact Finset.sum_erase_add _ _ hmem

/-- The all-false potential is the total adjacency length. -/
theorem sumUnvisited_replicate (adj : List (List (ℕ × ℚ))) (k : ℕ) :
    sumUnvisited adj (List.replicate k false) = ∑ j ∈ Finset.range adj.length,
      (adj.getD j []).length := by
  rw [sumUnvisited]
  congr 1
  ext j
  have hrep : (List.replicate k false).getD j false = false := by
    rw [List.getD_eq_getElem?_getD]
    rcases Nat.lt_or_ge j k with h | h
    · rw [List.getElem?_replicate_of_lt h]
      rfl
    · rw [List.getElem?_eq_none_iff.mpr (by simpa using h)]
      rfl
  simp [hrep]

/-- The range-indexed sum of adjacency lengths is the mapped list sum. -/
theorem sum_map_length_eq :
    ∀ adj : List (List (ℕ × ℚ)),
      (adj.map List.length).sum = ∑ j ∈ Finset.range adj.length,
        (adj.getD j []).length := by
  intro adj
  induction adj with
  | nil => simp
  | cons a l ih =>
      simp only [List.map_cons, List.sum_cons, List.length_cons, ih]
      rw [Finset.sum_range_succ']
      simp only [List.getD_cons_succ, List.getD_cons_zero]
      omega

/-- The `true` count of a boolean list is the size of its `true` index
set. -/
theorem count_true_eq_filter_card :
    ∀ l : List Bool, l.count true = ((Finset.range l.length).filter
      (fun j => l.getD j false = true)).card := by
  intro l
  induction l using List.reverseRecOn with
  | nil => simp
  | append_singleton bs b ih =>
      rw [List.count_append, List.length_append]
      simp only [List.length_singleton]
      have hsucc : (Finset.range (bs.length + 1))
          = insert bs.length (Finset.range bs.length) := by
        rw [Finset.range_succ]
      rw [hsucc, Finset.filter_insert]
      have hgd : ∀ j < bs.length, (bs ++ [b]).getD j false = bs.getD j false := by
        intro j hj
        rw [List.getD_eq_getElem?_getD, List.getD_eq_getElem?_getD,
          List.getElem?_append_left hj]
      have hfilter_eq : (Finset.range bs.length).filter
          (fun j => (bs ++ [b]).getD j false = true)
          = (Finset.range bs.length).filter (fun j => bs.getD j false = true) := by
        ext j
        simp only [Finset.mem_filter, Finset.mem_range]
        constructor
        · rintro ⟨hj, h⟩
          exact ⟨hj, by rw [← hgd j hj]; exact h⟩
        · rintro ⟨hj, h⟩
          exact ⟨hj, by rw [hgd j hj]; exact h⟩
      have hlast : (bs ++ [b]).getD bs.length false = b := by
        rw [List.getD_eq_getElem?_getD, List.getElem?_append_right le_rfl]
        simp
      have hnotmem : bs.length ∉ (Finset.range bs.length).filter
          (fun j => (bs ++ [b]).getD j false = true) := by
        simp [Finset.mem_filter]
      cases b with
      | false =>
          rw [if_neg (by rw [hlast]; simp)]
          rw [hfilter_eq, ← ih]
          simp
      | true =>
          rw [if_pos (by rw [hlast])]
          rw [Finset.card_insert_of_not_mem hnotmem, hfilter_eq, ← ih]
          simp [List.count_cons]

/-- A generic version of `get?_eq_some_getD` for any element type. -/
theorem get?_eq_some_getD' {α : Type} (l : List α) (d : α) (i : ℕ)
    (h : i < l.length) : l.get? i = some (l.getD i d) := by
  rw [List.getD_eq_getElem?_getD, List.get?_eq_getElem?]
  cases hx : l[i]? with
  | none =>
      rw [List.getElem?_eq_none_iff] at hx
      omega
  | some b => rfl

/-- The `getD` entry at an in-range index is a member. -/
theorem getD_mem {α : Type} (l : List α) (d : α) (i : ℕ) (h : i < l.length) :
    l.getD i d ∈ l := by
  rw [List.getD_eq_getElem?_getD, List.getElem?_eq_getElem h]
  exact List.getElem_mem h

/-- Full invariant specification of the traversal loop of
`compute_neighborhood_sizes`: starting from a well-formed state whose
potential is below the fuel, the loop succeeds; the final visited flags are
closed under adjacency, cover the initial stack, grow monotonically, mark
only clusters reachable from `i0`, and the output records one count per
newly visited cluster. -/
theorem cnsLoop_spec (adj : List (List (ℕ × ℚ))) (i0 : ℕ)
    (hadj : ∀ l ∈ adj, ∀ p ∈ l, p.1 < adj.length) :
    ∀ (fuel : ℕ) (visited : List Bool) (stack : List ℕ) (out : List ℕ),
      visited.length = adj.length →
      (∀ j ∈ stack, j < adj.length) →
      (∀ j ∈ stack, ReachC adj i0 j) →
      (∀ j, visited.getD j false = true → ReachC adj i0 j) →
      (∀ a, visited.getD a false = true → ∀ b ∈ adjC adj a,
        visited.getD b false = true ∨ b ∈ stack) →
      stack.length + sumUnvisited adj visited < fuel →
      ∃ res vfin, cnsLoop adj fuel visited stack out = some (res, vfin) ∧
        vfin.length = adj.length ∧
        res.length = out.length + (vfin.count true - visited.count true) ∧
        visited.count true ≤ vfin.count true ∧
        (∀ j, visited.getD j false = true → vfin.getD j false = true) ∧
        (∀ j, vfin.getD j false = true → ReachC adj i0 j) ∧
        (∀ j ∈ stack, vfin.getD j false = true) ∧
        (∀ a, vfin.getD a false = true → ∀ b ∈ adjC adj a,
          vfin.getD b false = true) := by
  intro fuel
  induction fuel with
  | zero =>
      intro visited stack out hlen hsb hsr hvr hob hfuel
      cases stack with
      | nil =>
          refine ⟨out, visited, rfl, hlen, by omega, le_rfl,
            fun j h => h, hvr, by simp, ?_⟩
          intro a ha b hb
          rcases hob a ha b hb with h | h
          · exact h
          · simp at h
      | cons i rest => simp at hfuel
  | succ f ih =>
      intro visited stack out hlen hsb hsr hvr hob hfuel
      cases stack with
      | nil =>
          refine ⟨out, visited, rfl, hlen, by omega, le_rfl,
            fun j h => h, hvr, by simp, ?_⟩
          intro a ha b hb
          rcases hob a ha b hb with h | h
          · exact h
          · simp at h
      | cons i rest =>
          have hib : i < adj.length := hsb i (List.mem_cons_self _ _)
          have hivlen : i < visited.length := by omega
          have hgi : visited.get? i = some (visited.getD i false) :=
            get?_eq_some_getD visited i hivlen
          by_cases hvi : visited.getD i false = true
          · have hstep : cnsLoop adj (f + 1) visited (i :: rest) out
                = cnsLoop adj f visited rest out := by
              rw [cnsLoop]
              rw [Option.bind_eq_bind, hgi, Option.some_bind, hvi]
              simp
            rw [hstep]
            have hob2 : ∀ a, visited.getD a false = true → ∀ b ∈ adjC adj a,
                visited.getD b false = true ∨ b ∈ rest := by
              intro a ha b hb
              rcases hob a ha b hb with h | h
              · exact Or.inl h
              · rcases List.mem_cons.mp h with rfl | h2
                · exact Or.inl hvi
                · exact Or.inr h2
            have hfuel2 : rest.length + sumUnvisited adj visited < f := by
              simp only [List.length_cons] at hfuel
              omega
            obtain ⟨res, vfin, heq, h1, h2, h3, h4, h5, h6, h7⟩ :=
              ih visited rest out hlen
                (fun j hj => hsb j (List.mem_cons_of_mem _ hj))
                (fun j hj => hsr j (List.mem_cons_of_mem _ hj)) hvr hob2 hfuel2
            refine ⟨res, vfin, heq, h1, h2, h3, h4, h5, ?_, h7⟩
            intro j hj
            rcases List.mem_cons.mp hj with rfl | hj
            · exact h4 j hvi
            · exact h6 j hj
          · have hvif : visited.getD i false = false := by
              cases h : visited.getD i false
              · rfl
              · exact absurd h hvi
            have hadjI_mem : adj.getD i [] ∈ adj := getD_mem adj [] i hib
            have hadjI_bound : ∀ p ∈ adj.getD i [], p.1 < adj.length :=
              hadj _ hadjI_mem
            have hlen' : (visited.set i true).length = adj.length := by
              simp [hlen]
            have hbound' : ∀ p ∈ adj.getD i [], p.1 < (visited.set i true).length := by
              intro p hp
              rw [hlen']
              exact hadjI_bound p hp
            obtain ⟨newNb, hfil, hfillen, hfilmem, hfilcomp⟩ :=
              filterUnvisited_spec (visited.set i true) (adj.getD i []) hbound'
            have hga : adj.get? i = some (adj.getD i []) :=
              get?_eq_some_getD' adj [] i hib
            have hstep : cnsLoop adj (f + 1) visited (i :: rest) out
                = cnsLoop adj f (visited.set i true)
                    ((newNb.map Prod.fst).reverse ++ rest)
                    (out ++ [newNb.length]) := by
              rw [cnsLoop]
              rw [Option.bind_eq_bind, hgi, Option.some_bind, hvif]
              simp only [Bool.false_eq_true, if_false]
              rw [Option.bind_eq_bind, hga, Option.some_bind]
              rw [hfil]
              rfl
            rw [hstep]
            have hvisited'_getD : ∀ j, (visited.set i true).getD j false = true →
                j = i ∨ visited.getD j false = true := by
              intro j hj
              by_cases hji : j = i
              · exact Or.inl hji
              · rw [getD_set_ne visited i j hji true] at hj
                exact Or.inr hj
            have hreach_i : ReachC adj i0 i := hsr i (List.mem_cons_self _ _)
            have hstack_mem : ∀ j ∈ (newNb.map Prod.fst).reverse ++ rest,
                j < adj.length ∧ ReachC adj i0 j := by
              intro j hj
              rcases List.mem_append.mp hj with hj | hj
              · rw [List.mem_reverse] at hj
                obtain ⟨p, hp, rfl⟩ := List.mem_map.mp hj
                obtain ⟨hpadj, _⟩ := hfilmem p hp
                refine ⟨hadjI_bound p hpadj, ?_⟩
                refine Relation.ReflTransGen.tail hreach_i ?_
                show p.1 ∈ adjC adj i
                exact List.mem_map.mpr ⟨p, hpadj, rfl⟩
              · exact ⟨hsb j (List.mem_cons_of_mem _ hj),
                  hsr j (List.mem_cons_of_mem _ hj)⟩
            have hvr' : ∀ j, (visited.set i true).getD j false = true →
                ReachC adj i0 j := by
              intro j hj
              rcases hvisited'_getD j hj with rfl | hj2
              · exact hreach_i
              · exact hvr j hj2
            have hmono_set : ∀ j, visited.getD j false = true →
                (visited.set i true).getD j false = true := by
              intro j hj
              by_cases hji : j = i
              · subst hji
                rw [getD_set_self visited j hivlen true]
              · rw [getD_set_ne visited i j hji true]
                exact hj
            have hob' : ∀ a, (visited.set i true).getD a false = true →
                ∀ b ∈ adjC adj a, (visited.set i true).getD b false = true ∨
                  b ∈ (newNb.map Prod.fst).reverse ++ rest := by
              intro a ha b hb
              rcases hvisited'_getD a ha with rfl | ha2
              · obtain ⟨q, hq, rfl⟩ := List.mem_map.mp hb
                by_cases hbv : (visited.set a true).getD q.1 false = true
                · exact Or.inl hbv
                · have hbf : (visited.set a true).getD q.1 false = false := by
                    cases h : (visited.set a true).getD q.1 false
                    · rfl
                    · exact absurd h hbv
                  have hqmem : q ∈ newNb := hfilcomp q hq hbf
                  refine Or.inr (List.mem_append.mpr (Or.inl ?_))
                  rw [List.mem_reverse]
                  exact List.mem_map.mpr ⟨q, hqmem, rfl⟩
              · rcases hob a ha2 b hb with h | h
                · exact Or.inl (hmono_set b h)
                · rcases List.mem_cons.mp h with rfl | h2
                  · exact Or.inl (by rw [getD_set_self visited b hivlen true])
                  · exact Or.inr (List.mem_append.mpr (Or.inr h2))
            have hsum : sumUnvisited adj (visited.set i true) + (adj.getD i []).length
                = sumUnvisited adj visited :=
              sumUnvisited_set adj visited i hib hivlen hvif
            have hfuel' : ((newNb.map Prod.fst).reverse ++ rest).length
                + sumUnvisited adj (visited.set i true) < f := by
              rw [List.length_append, List.length_reverse, List.length_map]
              simp only [List.length_cons] at hfuel
              omega
            obtain ⟨res, vfin, heq, h1, h2, h3, h4, h5, h6, h7⟩ :=
              ih (visited.set i true) ((newNb.map Prod.fst).reverse ++ rest)
                (out ++ [newNb.length]) hlen'
                (fun j hj => (hstack_mem j hj).1)
                (fun j hj => (hstack_mem j hj).2) hvr' hob' hfuel'
            have hcount : (visited.set i true).count true = visited.count true + 1 := by
              apply count_set_true
              rw [hgi, hvif]
            refine ⟨res, vfin, heq, h1, ?_, ?_, ?_, h5, ?_, h7⟩
            · rw [h2, hcount]
              rw [hcount] at h3
              simp only [List.length_append, List.length_singleton]
              omega
            · rw [hcount] at h3
              omega
            · intro j hj
              exact h4 j (hmono_set j hj)
            · intro j hj
              rcases List.mem_cons.mp hj with rfl | hj2
              · exact h4 j (by rw [getD_set_self visited j hivlen true])
              · exact h6 j (List.mem_append.mpr (Or.inr hj2))

/-- Reading a `replicate false` list always yields `false`. -/
theorem getD_replicate_false (k j : ℕ) :
    (List.replicate k false).getD j false = false := by
  rw [List.getD_eq_getElem?_getD]
  rcases Nat.lt_or_ge j k with h | h
  · rw [List.getElem?_replicate_of_lt h]
    rfl
  · rw [List.getElem?_eq_none_iff.mpr (by simpa using h)]
    rfl

/-- Adjacency targets of an in-range index are in range; out-of-range
indices have no targets. -/
theorem adjC_bound (adj : List (List (ℕ × ℚ)))
    (hadj : ∀ l ∈ adj, ∀ p ∈ l, p.1 < adj.length) (a b : ℕ)
    (hb : b ∈ adjC adj a) : b < adj.length := by
  rcases Nat.lt_or_ge a adj.length with ha | ha
  · obtain ⟨p, hp, rfl⟩ := List.mem_map.mp hb
    exact hadj _ (getD_mem adj [] a ha) p hp
  · rw [adjC, List.getD_eq_default _ _ (by omega)] at hb
    simp at hb

/-- Claim C1 (amended): for a well-formed component and member index `i`,
`compute_neighborhood_sizes` succeeds and returns the running cumulative
sum of the newly-unvisited-neighbor counts recorded at each visit of its
stack-based traversal; the sequence is non-decreasing and its length equals
the number of distinct clusters reachable from `i` along the adjacency list
(not the number of BFS levels, and the entries may double-count clusters
discovered from several neighbors). -/
theorem claim_C1_amended (c : CComp) (i : ℕ)
    (hlen : c.adjacencyList.length = c.cardinality)
    (hadj : ∀ l ∈ c.adjacencyList, ∀ p ∈ l, p.1 < c.cardinality)
    (hi : i < c.cardinality) :
    ∃ out, c.computeNeighborhoodSizes i = some out ∧
      out.length = Set.ncard {j | ReachC c.adjacencyList i j} ∧
      List.Sorted (· ≤ ·) out := by
  have hadj' : ∀ l ∈ c.adjacencyList, ∀ p ∈ l, p.1 < c.adjacencyList.length := by
    rw [hlen]
    exact hadj
  have hlenv : (List.replicate c.cardinality false).length = c.adjacencyList.length := by
    simp [hlen]
  have hfuel : ([i] : List ℕ).length +
      sumUnvisited c.adjacencyList (List.replicate c.cardinality false) < cnsFuel c := by
    rw [sumUnvisited_replicate, ← sum_map_length_eq, cnsFuel]
    simp only [List.length_singleton]
    omega
  obtain ⟨res, vfin, heq, hvlen, hreslen, hmono, _, hreach, hstackmem, hclosure⟩ :=
    cnsLoop_spec c.adjacencyList i hadj' (cnsFuel c)
      (List.replicate c.cardinality false) [i] [] hlenv
      (by
        intro j hj
        rw [List.mem_singleton] at hj
        subst hj
        omega)
      (by
        intro j hj
        rw [List.mem_singleton] at hj
        subst hj
        exact Relation.ReflTransGen.refl)
      (by
        intro j hj
        rw [getD_replicate_false] at hj
        exact absurd hj (by simp))
      (by
        intro a ha
        rw [getD_replicate_false] at ha
        exact absurd ha (by simp))
      hfuel
  refine ⟨cumSum res, ?_, ?_, cumSumFrom_sorted 0 res⟩
  · rw [CComp.computeNeighborhoodSizes, heq]
    rfl
  · rw [cumSum, cumSumFrom_length, hreslen]
    have hset : {j | ReachC c.adjacencyList i j}
        = ↑((Finset.range vfin.length).filter
            (fun j => vfin.getD j false = true)) := by
      ext j
      simp only [Set.mem_setOf_eq, Finset.coe_filter, Finset.mem_range,
        Set.mem_setOf_eq]
      constructor
      · intro hj
        have hmain : vfin.getD j false = true ∧ j < c.adjacencyList.length := by
          induction hj with
          | refl =>
              refine ⟨hstackmem i (List.mem_singleton.mpr rfl), by omega⟩
          | tail hab hstep ihj =>
              obtain ⟨hva, _⟩ := ihj
              exact ⟨hclosure _ hva _ hstep,
                adjC_bound c.adjacencyList hadj' _ _ hstep⟩
        exact ⟨by omega, hmain.1⟩
      · intro ⟨_, hj⟩
        exact hreach j hj
    rw [hset, Set.ncard_coe_Finset, ← count_true_eq_filter_card]
    simp only [List.count_nil, List.length_nil, Nat.zero_add]
    have : List.count true (List.replicate c.cardinality false) = 0 := by
      simp [List.count_replicate]
    omega

/-- Witness for `claim_C1_amended` on the triangle component at member 0. -/
theorem claim_C1_amended_witness :
    ∃ out, triangleComp.computeNeighborhoodSizes 0 = some out ∧
      out.length = Set.ncard {j | ReachC triangleComp.adjacencyList 0 j} ∧
      List.Sorted (· ≤ ·) out :=
  claim_C1_amended triangleComp 0 (by decide) (by decide) (by decide)

/-! ### Partition and `from_clusters` (claim C10) -/

/-- Fuel-indexed embedding of the traversal loop of `Component::partition`
(chaoda/graph.rs lines 333-343): pop an index, skip it if visited,
otherwise mark it and push all of its neighbors.  The stack is
unconditionally initialised to `[0]` by the caller; indexing `visited` or
the adjacency list out of range is a Rust panic, modelled as `none`. -/
def partDfs (adj : List (List (ℕ × ℚ))) :
    ℕ → List Bool → List ℕ → Option (List Bool)
  | _, visited, [] => some visited
  | 0, _, _ :: _ => none
  | fuel + 1, visited, i :: stack => do
      let b ← visited.get? i
      if b then partDfs adj fuel visited stack
      else do
        let adjI ← adj.get? i
        partDfs adj fuel (visited.set i true)
          ((adjI.map Prod.fst).reverse ++ stack)

/-- Fuel sufficient for the partition traversal (same potential argument as
`cnsFuel`). -/
def partFuel (c : CComp) : ℕ :=
  1 + c.cardinality + (c.adjacencyList.map List.length).sum

/-- Embedding of Rust `Iterator::position`: index of the first element
satisfying the predicate. -/
def positionIdx {α : Type} (p : α → Bool) : List α → Option ℕ
  | [] => none
  | x :: xs => if p x then some 0 else (positionIdx p xs).map (· + 1)

/-- Embedding of the index remap of `Component::partition` (chaoda/graph.rs
lines 352-361 and 388-397): replace each neighbor index by the position of
its cluster's offset in the kept cluster list; `self.clusters[*j]` out of
range and the `unwrap_or_else(unreachable!)` on a missing offset are Rust
panics, modelled as `none`. -/
def remapEntry (oldClusters newClusters : List (ℕ × ℕ × ℕ))
    (p : ℕ × ℚ) : Option (ℕ × ℚ) := do
  let old ← oldClusters.get? p.1
  let jdx ← positionIdx (fun q => q.1 = old.1) newClusters
  pure (jdx, p.2)

/-- Embedding of the remap loop over one adjacency row. -/
def remapRow (oldClusters newClusters : List (ℕ × ℕ × ℕ))
    (row : List (ℕ × ℚ)) : Option (List (ℕ × ℚ)) :=
  row.mapM (remapEntry oldClusters newClusters)

/-- Embedding of `Component::partition` (chaoda/graph.rs lines 331-422):
run the stack traversal from local index 0, split members, adjacency rows
and per-member data by the visited flag, and remap the neighbor indices of
both parts (the unvisited "other" part first, as the code does). -/
def CComp.partition (c : CComp) : Option (CComp × CComp) := do
  let vfin ← partDfs c.adjacencyList (partFuel c)
      (List.replicate c.cardinality false) [0]
  let trip := vfin.zip (c.clusters.zip c.adjacencyList)
  let keep2 := trip.filter (fun t => !t.1)
  let p2cl := keep2.map (fun t => t.2.1)
  let p2adj ← (keep2.map (fun t => t.2.2)).mapM (remapRow c.clusters p2cl)
  let p2ratios := ((c.accCpCarRatios.zip vfin).filter (fun t => !t.2)).map
    (fun t => t.1)
  let p2props := ((c.anomalyProps.zip vfin).filter (fun t => !t.2)).map
    (fun t => t.1)
  let other : CComp :=
    { clusters := p2cl
      adjacencyList := p2adj
      population := (p2cl.map (fun t => t.2.1)).sum
      accCpCarRatios := p2ratios
      anomalyProps := p2props }
  let keep1 := trip.filter (fun t => t.1)
  let p1cl := keep1.map (fun t => t.2.1)
  let p1adj ← (keep1.map (fun t => t.2.2)).mapM (remapRow c.clusters p1cl)
  let p1ratios := ((c.accCpCarRatios.zip vfin).filter (fun t => t.2)).map
    (fun t => t.1)
  let p1props := ((c.anomalyProps.zip vfin).filter (fun t => t.2)).map
    (fun t => t.1)
  let kept : CComp :=
    { clusters := p1cl
      adjacencyList := p1adj
      population := (p1cl.map (fun t => t.2.1)).sum
      accCpCarRatios := p1ratios
      anomalyProps := p1props }
  pure (kept, other)

/-- Embedding of the component-splitting loop of `Graph::from_clusters`
(chaoda/graph.rs lines 74-80): partition, keep the connected part, repeat
on the rest until it is empty.  Each successful partition strictly shrinks
the rest, so `cardinality + 1` fuel suffices (`buildComponentsLoop_total`).
-/
def buildComponentsLoop : ℕ → CComp → Option (List CComp)
  | 0, _ => none
  | fuel + 1, c => do
      let pr ← c.partition
      if CComp.isEmptyC pr.2 then pure [pr.1]
      else do
        let rest ← buildComponentsLoop fuel pr.2
        pure (pr.1 :: rest)

/-- Embedding of the compact `Graph` (chaoda/graph.rs lines 21-28). -/
structure CGraph where
  /-- The connected components. -/
  components : List CComp
  /-- Cumulative component populations. -/
  populations : List ℕ
  /-- The `(offset, cardinality)` identity keys of the members. -/
  members : Finset (ℕ × ℕ)

/-- Embedding of `Graph::from_clusters` (chaoda/graph.rs lines 71-94). -/
def fromClusters (dist : OddBallData → OddBallData → ℚ)
    (cs : List OddBallData) : Option CGraph := do
  let comps ← buildComponentsLoop (cs.length + 1) (CComp.new dist cs)
  pure
    { components := comps
      populations := cumSum (comps.map CComp.population)
      members := (cs.map (fun c => (c.offset, c.cardinality))).toFinset }

/-- A `mapM` over `Option` succeeds when every element does, and the result
is pointwise related to the input. -/
theorem mapM_some_of_forall {α β : Type} (f : α → Option β) :
    ∀ l : List α, (∀ x ∈ l, (f x).isSome) →
      ∃ r, l.mapM f = some r ∧ List.Forall₂ (fun x y => f x = some y) l r := by
  intro l
  induction l with
  | nil => intro _; exact ⟨[], rfl, List.Forall₂.nil⟩
  | cons x xs ih =>
      intro h
      obtain ⟨y, hy⟩ := Option.isSome_iff_exists.mp (h x (List.mem_cons_self _ _))
      obtain ⟨r, hr, hrel⟩ := ih (fun z hz => h z (List.mem_cons_of_mem _ hz))
      refine ⟨y :: r, ?_, List.Forall₂.cons hy hrel⟩
      rw [List.mapM_cons, hy, hr]
      rfl

/-- Pointwise access of a `Forall₂` relation through `getD`. -/
theorem forall2_getD {α β : Type} {R : α → β → Prop} {l : List α} {r : List β}
    (h : List.Forall₂ R l r) (dl : α) (dr : β) :
    ∀ k, k < l.length → R (l.getD k dl) (r.getD k dr) := by
  induction h with
  | nil => intro k hk; simp at hk
  | cons hxy hrest ih =>
      intro k hk
      cases k with
      | zero => simpa using hxy
      | succ m =>
          simp only [List.getD_cons_succ]
          exact ih m (by simpa using hk)

/-- Right members of a `Forall₂` come from left members. -/
theorem forall2_mem_right {α β : Type} {R : α → β → Prop} {l : List α}
    {r : List β} (h : List.Forall₂ R l r) :
    ∀ y ∈ r, ∃ x ∈ l, R x y := by
  induction h with
  | nil => intro y hy; simp at hy
  | cons hxy hrest ih =>
      intro y hy
      rcases List.mem_cons.mp hy with rfl | hy
      · exact ⟨_, List.mem_cons_self _ _, hxy⟩
      · obtain ⟨x, hx, hR⟩ := ih y hy
        exact ⟨x, List.mem_cons_of_mem _ hx, hR⟩

/-- A successful `positionIdx` returns an in-range index satisfying the
predicate. -/
theorem positionIdx_some_spec {α : Type} (p : α → Bool) :
    ∀ (l : List α) (k : ℕ), positionIdx p l = some k →
      k < l.length ∧ ∀ d, p (l.getD k d) = true := by
  intro l
  induction l with
  | nil => intro k h; simp [positionIdx] at h
  | cons x xs ih =>
      intro k h
      rw [positionIdx] at h
      by_cases hp : p x
      · rw [if_pos hp] at h
        obtain rfl := Option.some.inj h
        exact ⟨by simp, fun d => by simpa using hp⟩
      · rw [if_neg hp] at h
        cases hk : positionIdx p xs with
        | none => rw [hk] at h; simp at h
        | some m =>
            rw [hk] at h
            simp only [Option.map_some'] at h
            obtain rfl := Option.some.inj h
            obtain ⟨hlt, hpd⟩ := ih m hk
            exact ⟨by simpa using hlt, fun d => by simpa using hpd d⟩

/-- `positionIdx` finds the first index satisfying the predicate. -/
theorem positionIdx_eq_some_of {α : Type} (p : α → Bool) :
    ∀ (l : List α) (k : ℕ) (d : α), k < l.length → p (l.getD k d) = true →
      (∀ m, m < k → p (l.getD m d) = false) → positionIdx p l = some k := by
  intro l
  induction l with
  | nil => intro k d hk; simp at hk
  | cons x xs ih =>
      intro k d hk hpk hbefore
      rw [positionIdx]
      cases k with
      | zero =>
          simp only [List.getD_cons_zero] at hpk
          rw [if_pos hpk]
      | succ m =>
          have hx : p x = false := by
            have := hbefore 0 (Nat.succ_pos m)
            simpa using this
          rw [if_neg (by simp [hx])]
          have hrec : positionIdx p xs = some m := by
            refine ih m d (by simpa using hk) (by simpa using hpk) ?_
            intro m2 hm2
            have := hbefore (m2 + 1) (by omega)
            simpa using this
          rw [hrec]
          rfl

/-- Invariant specification of the partition traversal: from a well-formed
state with potential below the fuel it succeeds, and the final visited
flags preserve old marks, cover the stack and are closed under
adjacency. -/
theorem partDfs_spec (adj : List (List (ℕ × ℚ)))
    (hadj : ∀ l ∈ adj, ∀ p ∈ l, p.1 < adj.length) :
    ∀ (fuel : ℕ) (visited : List Bool) (stack : List ℕ),
      visited.length = adj.length →
      (∀ j ∈ stack, j < adj.length) →
      (∀ a, visited.getD a false = true → ∀ b ∈ adjC adj a,
        visited.getD b false = true ∨ b ∈ stack) →
      stack.length + sumUnvisited adj visited < fuel →
      ∃ vfin, partDfs adj fuel visited stack = some vfin ∧
        vfin.length = adj.length ∧
        (∀ j, visited.getD j false = true → vfin.getD j false = true) ∧
        (∀ j ∈ stack, vfin.getD j false = true) ∧
        (∀ a, vfin.getD a false = true → ∀ b ∈ adjC adj a,
          vfin.getD b false = true) := by
  intro fuel
  induction fuel with
  | zero =>
      intro visited stack hlen hsb hob hfuel
      cases stack with
      | nil =>
          refine ⟨visited, rfl, hlen, fun j h => h, by simp, ?_⟩
          intro a ha b hb
          rcases hob a ha b hb with h | h
          · exact h
          · simp at h
      | cons i rest => simp at hfuel
  | succ f ih =>
      intro visited stack hlen hsb hob hfuel
      cases stack with
      | nil =>
          refine ⟨visited, rfl, hlen, fun j h => h, by simp, ?_⟩
          intro a ha b hb
          rcases hob a ha b hb with h | h
          · exact h
          · simp at h
      | cons i rest =>
          have hib : i < adj.length := hsb i (List.mem_cons_self _ _)
          have hivlen : i < visited.length := by omega
          have hgi : visited.get? i = some (visited.getD i false) :=
            get?_eq_some_getD visited i hivlen
          by_cases hvi : visited.getD i false = true
          · have hstep : partDfs adj (f + 1) visited (i :: rest)
                = partDfs adj f visited rest := by
              rw [partDfs]
              rw [Option.bind_eq_bind, hgi, Option.some_bind, hvi]
              simp
            rw [hstep]
            have hob2 : ∀ a, visited.getD a false = true → ∀ b ∈ adjC adj a,
                visited.getD b false = true ∨ b ∈ rest := by
              intro a ha b hb
              rcases hob a ha b hb with h | h
              · exact Or.inl h
              · rcases List.mem_cons.mp h with rfl | h2
                · exact Or.inl hvi
                · exact Or.inr h2
            have hfuel2 : rest.length + sumUnvisited adj visited < f := by
              simp only [List.length_cons] at hfuel
              omega
            obtain ⟨vfin, heq, h1, h2, h3, h4⟩ :=
              ih visited rest hlen
                (fun j hj => hsb j (List.mem_cons_of_mem _ hj)) hob2 hfuel2
            refine ⟨vfin, heq, h1, h2, ?_, h4⟩
            intro j hj
            rcases List.mem_cons.mp hj with rfl | hj
            · exact h2 j hvi
            · exact h3 j hj
          · have hvif : visited.getD i false = false := by
              cases h : visited.getD i false
              · rfl
              · exact absurd h hvi
            have hga : adj.get? i = some (adj.getD i []) :=
              get?_eq_some_getD' adj [] i hib
            have hstep : partDfs adj (f + 1) visited (i :: rest)
                = partDfs adj f (visited.set i true)
                    (((adj.getD i []).map Prod.fst).reverse ++ rest) := by
              rw [partDfs]
              rw [Option.bind_eq_bind, hgi, Option.some_bind, hvif]
              simp only [Bool.false_eq_true, if_false]
              rw [Option.bind_eq_bind, hga, Option.some_bind]
            rw [hstep]
            have hmono_set : ∀ j, visited.getD j false = true →
                (visited.set i true).getD j false = true := by
              intro j hj
              by_cases hji : j = i
              · subst hji
                rw [getD_set_self visited j hivlen true]
              · rw [getD_set_ne visited i j hji true]
                exact hj
            have hsb' : ∀ j ∈ ((adj.getD i []).map Prod.fst).reverse ++ rest,
                j < adj.length := by
              intro j hj
              rcases List.mem_append.mp hj with hj | hj
              · rw [List.mem_reverse] at hj
                obtain ⟨p, hp, rfl⟩ := List.mem_map.mp hj
                exact hadj _ (getD_mem adj [] i hib) p hp
              · exact hsb j (List.mem_cons_of_mem _ hj)
            have hob' : ∀ a, (visited.set i true).getD a false = true →
                ∀ b ∈ adjC adj a, (visited.set i true).getD b false = true ∨
                  b ∈ ((adj.getD i []).map Prod.fst).reverse ++ rest := by
              intro a ha b hb
              by_cases hai : a = i
              · subst hai
                refine Or.inr (List.mem_append.mpr (Or.inl ?_))
                rw [List.mem_reverse]
                exact hb
              · rw [getD_set_ne visited i a hai true] at ha
                rcases hob a ha b hb with h | h
                · exact Or.inl (hmono_set b h)
                · rcases List.mem_cons.mp h with rfl | h2
                  · exact Or.inl (by rw [getD_set_self visited b hivlen true])
                  · exact Or.inr (List.mem_append.mpr (Or.inr h2))
            have hsum : sumUnvisited adj (visited.set i true) + (adj.getD i []).length
                = sumUnvisited adj visited :=
              sumUnvisited_set adj visited i hib hivlen hvif
            have hfuel' : (((adj.getD i []).map Prod.fst).reverse ++ rest).length
                + sumUnvisited adj (visited.set i true) < f := by
              rw [List.length_append, List.length_reverse, List.length_map]
              simp only [List.length_cons] at hfuel
              omega
            obtain ⟨vfin, heq, h1, h2, h3, h4⟩ :=
              ih (visited.set i true)
                (((adj.getD i []).map Prod.fst).reverse ++ rest)
                (by simp [hlen]) hsb' hob' hfuel'
            refine ⟨vfin, heq, h1, ?_, ?_, h4⟩
            · intro j hj
              exact h2 j (hmono_set j hj)
            · intro j hj
              rcases List.mem_cons.mp hj with rfl | hj2
              · exact h2 j (by rw [getD_set_self visited j hivlen true])
              · exact h3 j (List.mem_append.mpr (Or.inr hj2))

/-- Filtering a zip on its boolean component is filtering index positions. -/
theorem zip_filter_eq_index {γ : Type} (dg : γ) (p : Bool → Bool) :
    ∀ (v : List Bool) (l : List γ), v.length = l.length →
      (v.zip l).filter (fun t => p t.1)
        = ((List.range v.length).filter (fun j => p (v.getD j false))).map
            (fun j => (v.getD j false, l.getD j dg)) := by
  intro v
  induction v with
  | nil => intro l h; simp
  | cons b bs ih =>
      intro l h
      cases l with
      | nil => simp at h
      | cons x xs =>
          have hlen : bs.length = xs.length := by simpa using h
          have hcomp :
              List.filter ((fun j => p ((b :: bs).getD j false)) ∘ Nat.succ)
                (List.range bs.length)
              = List.filter (fun j => p (bs.getD j false)) (List.range bs.length) := by
            apply List.filter_congr
            intro j _
            rfl
          have hmapd :
              List.map ((fun j => ((b :: bs).getD j false, (x :: xs).getD j dg))
                  ∘ Nat.succ)
                (List.filter (fun j => p (bs.getD j false)) (List.range bs.length))
              = List.map (fun j => (bs.getD j false, xs.getD j dg))
                (List.filter (fun j => p (bs.getD j false)) (List.range bs.length)) := by
            apply List.map_congr_left
            intro j _
            rfl
          by_cases hb : p b
          · rw [List.zip_cons_cons, List.length_cons, List.range_succ_eq_map,
              List.filter_cons, List.filter_cons]
            simp only [List.getD_cons_zero]
            rw [if_pos hb, if_pos hb, List.map_cons, List.filter_map, hcomp,
              List.map_map, hmapd, ih xs hlen]
            rfl
          · rw [List.zip_cons_cons, List.length_cons, List.range_succ_eq_map,
              List.filter_cons, List.filter_cons]
            simp only [List.getD_cons_zero]
            rw [if_neg hb, if_neg hb, List.filter_map, hcomp,
              List.map_map, hmapd, ih xs hlen]

/-- `getD` of a zip is the pair of `getD`s, inside the bounds. -/
theorem zip_getD {α β : Type} (l1 : List α) (l2 : List β) (d1 : α) (d2 : β)
    (j : ℕ) (h1 : j < l1.length) (h2 : j < l2.length) :
    (l1.zip l2).getD j (d1, d2) = (l1.getD j d1, l2.getD j d2) := by
  have hz : j < (l1.zip l2).length := by
    rw [List.length_zip]
    omega
  rw [List.getD_eq_getElem?_getD, List.getElem?_eq_getElem hz,
    List.getD_eq_getElem?_getD, List.getElem?_eq_getElem h1,
    List.getD_eq_getElem?_getD, List.getElem?_eq_getElem h2]
  simp [List.getElem_zip]

/-- `getD` of a mapped list, inside the bounds. -/
theorem getD_map {α β : Type} (f : α → β) (l : List α) (d0 : α) (db : β)
    (k : ℕ) (h : k < l.length) :
    (l.map f).getD k db = f (l.getD k d0) := by
  rw [List.getD_eq_getElem?_getD, List.getElem?_map,
    List.getElem?_eq_getElem h, List.getD_eq_getElem?_getD,
    List.getElem?_eq_getElem h]
  rfl

/-- `positionIdx` succeeds when a satisfying element exists. -/
theorem positionIdx_isSome_of_exists {α : Type} (p : α → Bool) :
    ∀ l : List α, (∃ x ∈ l, p x = true) → ∃ k, positionIdx p l = some k := by
  intro l
  induction l with
  | nil => rintro ⟨x, hx, _⟩; simp at hx
  | cons y ys ih =>
      rintro ⟨x, hx, hpx⟩
      rw [positionIdx]
      by_cases hy : p y
      · exact ⟨0, by rw [if_pos hy]⟩
      · rcases List.mem_cons.mp hx with rfl | hx2
        · exact absurd hpx (by simp [hy])
        · obtain ⟨k, hk⟩ := ih ⟨x, hx2, hpx⟩
          exact ⟨k + 1, by rw [if_neg hy, hk]; rfl⟩

/-- Left members of a `Forall₂` map to right members. -/
theorem forall2_mem_left {α β : Type} {R : α → β → Prop} {l : List α}
    {r : List β} (h : List.Forall₂ R l r) :
    ∀ x ∈ l, ∃ y ∈ r, R x y := by
  induction h with
  | nil => intro x hx; simp at hx
  | cons hxy hrest ih =>
      intro x hx
      rcases List.mem_cons.mp hx with rfl | hx
      · exact ⟨_, List.mem_cons_self _ _, hxy⟩
      · obtain ⟨y, hy, hR⟩ := ih x hx
        exact ⟨y, List.mem_cons_of_mem _ hy, hR⟩

/-- Two positions of a `Nodup` list hold different values. -/
theorem nodup_getD_ne {α : Type} {l : List α} (h : l.Nodup) (d : α)
    {a b : ℕ} (ha : a < l.length) (hb : b < l.length) (hne : a ≠ b) :
    l.getD a d ≠ l.getD b d := by
  rw [List.getD_eq_getElem?_getD, List.getElem?_eq_getElem ha,
    List.getD_eq_getElem?_getD, List.getElem?_eq_getElem hb]
  simp only [Option.getD_some]
  intro heq
  exact hne (List.Nodup.getElem_inj_iff h |>.mp heq)

/-- Distinct positions of a list with `Nodup` image have different
images. -/
theorem nodup_map_getD_ne {α β : Type} (f : α → β) {l : List α}
    (h : (l.map f).Nodup) (d : α) {a b : ℕ} (ha : a < l.length)
    (hb : b < l.length) (hne : a ≠ b) :
    f (l.getD a d) ≠ f (l.getD b d) := by
  have h1 : (l.map f).getD a (f d) = f (l.getD a d) := getD_map f l d (f d) a ha
  have h2 : (l.map f).getD b (f d) = f (l.getD b d) := getD_map f l d (f d) b hb
  rw [← h1, ← h2]
  exact nodup_getD_ne h (f d) (by simpa using ha) (by simpa using hb) hne

/-- Complementary filters of a list have complementary lengths. -/
theorem length_filter_not {α : Type} (p : α → Bool) :
    ∀ l : List α, (l.filter p).length + (l.filter (fun x => !p x)).length
      = l.length := by
  intro l
  induction l with
  | nil => rfl
  | cons x xs ih =>
      rw [List.filter_cons, List.filter_cons]
      by_cases hx : p x
      · rw [if_pos hx, if_neg (by simp [hx])]
        simp only [List.length_cons]
        omega
      · rw [if_neg hx, if_pos (by simp [hx])]
        simp only [List.length_cons]
        omega

/-- Computation rule for a successful `remapEntry`. -/
theorem remapEntry_eq (oc nc : List (ℕ × ℕ × ℕ)) (p : ℕ × ℚ)
    (old : ℕ × ℕ × ℕ) (k : ℕ) (h1 : oc.get? p.1 = some old)
    (h2 : positionIdx (fun q => q.1 = old.1) nc = some k) :
    remapEntry oc nc p = some (k, p.2) := by
  rw [remapEntry, Option.bind_eq_bind, h1, Option.some_bind,
    Option.bind_eq_bind, h2, Option.some_bind]
  rfl

/-- Elimination rule for a successful `remapEntry`. -/
theorem remapEntry_elim (oc nc : List (ℕ × ℕ × ℕ)) (p q : ℕ × ℚ)
    (h : remapEntry oc nc p = some q) :
    ∃ old, oc.get? p.1 = some old ∧
      positionIdx (fun c => c.1 = old.1) nc = some q.1 ∧ q.2 = p.2 := by
  rw [remapEntry] at h
  cases hg : oc.get? p.1 with
  | none =>
      rw [Option.bind_eq_bind, hg, Option.none_bind] at h
      exact Option.noConfusion h
  | some old =>
      rw [Option.bind_eq_bind, hg, Option.some_bind] at h
      cases hp : positionIdx (fun c => c.1 = old.1) nc with
      | none =>
          rw [Option.bind_eq_bind, hp, Option.none_bind] at h
          exact Option.noConfusion h
      | some k =>
          rw [Option.bind_eq_bind, hp, Option.some_bind] at h
          obtain rfl := Option.some.inj h
          exact ⟨old, rfl, hp, rfl⟩

/-- A successful `mapM` is pointwise defined. -/
theorem mapM_eq_some_forall2 {α β : Type} (f : α → Option β) :
    ∀ (l : List α) (r : List β), l.mapM f = some r →
      List.Forall₂ (fun x y => f x = some y) l r := by
  intro l
  induction l with
  | nil =>
      intro r h
      rw [List.mapM_nil] at h
      obtain rfl := Option.some.inj h
      exact List.Forall₂.nil
  | cons x xs ih =>
      intro r h
      rw [List.mapM_cons] at h
      cases hx : f x with
      | none => rw [hx] at h; exact Option.noConfusion h
      | some y =>
          rw [hx] at h
          cases hxs : xs.mapM f with
          | none => rw [hxs] at h; exact Option.noConfusion h
          | some rs =>
              rw [hxs] at h
              obtain rfl := Option.some.inj h
              exact List.Forall₂.cons hx (ih rs hxs)

/-- Full specification of remapping the adjacency rows kept by one side of
the partition split: when the kept class is closed under adjacency (its
members' neighbors are in the class) the remap succeeds, and membership in
a remapped row corresponds exactly to membership in the original row
through the order-preserving renumbering of kept indices. -/
theorem remap_rows_spec (clusters : List (ℕ × ℕ × ℕ))
    (adj : List (List (ℕ × ℚ))) (vfin : List Bool) (p : Bool → Bool)
    (hca : clusters.length = adj.length)
    (hvlen : vfin.length = adj.length)
    (hW2 : ∀ l ∈ adj, ∀ q ∈ l, q.1 < adj.length)
    (hW4 : (clusters.map (fun t => t.1)).Nodup)
    (hclass : ∀ j, j < adj.length → p (vfin.getD j false) = true →
      ∀ pr ∈ adj.getD j [], p (vfin.getD pr.1 false) = true) :
    ∃ newAdj,
      (((vfin.zip (clusters.zip adj)).filter (fun t => p t.1)).map
          (fun t => t.2.2)).mapM
        (remapRow clusters
          (((vfin.zip (clusters.zip adj)).filter (fun t => p t.1)).map
            (fun t => t.2.1))) = some newAdj ∧
      newAdj.length
        = ((List.range vfin.length).filter
            (fun j => p (vfin.getD j false))).length ∧
      (∀ i' j' d, (j', d) ∈ newAdj.getD i' [] ↔
        (i' < ((List.range vfin.length).filter
            (fun j => p (vfin.getD j false))).length ∧
         j' < ((List.range vfin.length).filter
            (fun j => p (vfin.getD j false))).length ∧
         (((List.range vfin.length).filter
            (fun j => p (vfin.getD j false))).getD j' 0, d)
           ∈ adj.getD (((List.range vfin.length).filter
            (fun j => p (vfin.getD j false))).getD i' 0) [])) := by
  set idx := (List.range vfin.length).filter (fun j => p (vfin.getD j false))
    with hidx
  set ncl := ((vfin.zip (clusters.zip adj)).filter (fun t => p t.1)).map
    (fun t => t.2.1) with hncl
  have hidxmem : ∀ j ∈ idx, j < adj.length ∧ p (vfin.getD j false) = true := by
    intro j hj
    rw [hidx, List.mem_filter, List.mem_range] at hj
    exact ⟨by omega, hj.2⟩
  have hidxnd : idx.Nodup := List.Nodup.filter _ (List.nodup_range _)
  have hzlen : vfin.length = (clusters.zip adj).length := by
    rw [List.length_zip, hca, Nat.min_self, hvlen]
  have hkeep : (vfin.zip (clusters.zip adj)).filter (fun t => p t.1)
      = idx.map (fun j =>
          (vfin.getD j false, (clusters.zip adj).getD j ((0, 0, 0), []))) := by
    rw [hidx]
    exact zip_filter_eq_index ((0, 0, 0), ([] : List (ℕ × ℚ))) p vfin
      (clusters.zip adj) hzlen
  have hjbounds : ∀ j ∈ idx, j < clusters.length ∧ j < adj.length := by
    intro j hj
    obtain ⟨hja, _⟩ := hidxmem j hj
    exact ⟨by omega, hja⟩
  have hncl_eq : ncl = idx.map (fun j => clusters.getD j (0, 0, 0)) := by
    rw [hncl, hkeep, List.map_map]
    apply List.map_congr_left
    intro j hj
    obtain ⟨hjc, hja⟩ := hjbounds j hj
    simp only [Function.comp_apply]
    rw [zip_getD clusters adj (0, 0, 0) [] j hjc hja]
  have hrows_eq : ((vfin.zip (clusters.zip adj)).filter (fun t => p t.1)).map
      (fun t => t.2.2) = idx.map (fun j => adj.getD j []) := by
    rw [hkeep, List.map_map]
    apply List.map_congr_left
    intro j hj
    obtain ⟨hjc, hja⟩ := hjbounds j hj
    simp only [Function.comp_apply]
    rw [zip_getD clusters adj (0, 0, 0) [] j hjc hja]
  have hncl_len : ncl.length = idx.length := by
    rw [hncl_eq, List.length_map]
  have hσb : ∀ k, k < idx.length → idx.getD k 0 < adj.length ∧
      p (vfin.getD (idx.getD k 0) false) = true := by
    intro k hk
    exact hidxmem _ (getD_mem idx 0 k hk)
  have hpos : ∀ k, k < idx.length →
      positionIdx (fun q => q.1 = (clusters.getD (idx.getD k 0) (0, 0, 0)).1) ncl
        = some k := by
    intro k hk
    apply positionIdx_eq_some_of _ ncl k (0, 0, 0) (by omega)
    · rw [hncl_eq, getD_map _ idx 0 (0, 0, 0) k hk]
      exact decide_eq_true rfl
    · intro m hm
      rw [hncl_eq, getD_map _ idx 0 (0, 0, 0) m (by omega)]
      have hmne : idx.getD m 0 ≠ idx.getD k 0 :=
        nodup_getD_ne hidxnd 0 (by omega) hk (by omega)
      have hoffne : (clusters.getD (idx.getD m 0) (0, 0, 0)).1
          ≠ (clusters.getD (idx.getD k 0) (0, 0, 0)).1 := by
        apply nodup_map_getD_ne _ hW4
        · have := (hσb m (by omega)).1
          omega
        · have := (hσb k hk).1
          omega
        · exact hmne
      exact decide_eq_false hoffne
  have hmemidx : ∀ j, j < adj.length → p (vfin.getD j false) = true →
      ∃ k, k < idx.length ∧ idx.getD k 0 = j := by
    intro j hj hpj
    have hjm : j ∈ idx := by
      rw [hidx, List.mem_filter, List.mem_range]
      exact ⟨by omega, hpj⟩
    obtain ⟨k, hk, hkj⟩ := List.mem_iff_getElem.mp hjm
    refine ⟨k, hk, ?_⟩
    rw [List.getD_eq_getElem?_getD, List.getElem?_eq_getElem hk]
    simpa using hkj
  have hentry : ∀ j, j < adj.length → p (vfin.getD j false) = true →
      ∀ pr ∈ adj.getD j [], ∃ k, k < idx.length ∧ idx.getD k 0 = pr.1 ∧
        remapEntry clusters ncl pr = some (k, pr.2) := by
    intro j hj hpj pr hpr
    have hprb : pr.1 < adj.length :=
      hW2 _ (getD_mem adj [] j hj) pr hpr
    have hprp : p (vfin.getD pr.1 false) = true := hclass j hj hpj pr hpr
    obtain ⟨k, hk, hkj⟩ := hmemidx pr.1 hprb hprp
    refine ⟨k, hk, hkj, ?_⟩
    refine remapEntry_eq clusters ncl pr (clusters.getD pr.1 (0, 0, 0)) k
      (get?_eq_some_getD' clusters (0, 0, 0) pr.1 (by omega)) ?_
    rw [← hkj]
    exact hpos k hk
  have hrow_some : ∀ j, j < adj.length → p (vfin.getD j false) = true →
      (remapRow clusters ncl (adj.getD j [])).isSome := by
    intro j hj hpj
    obtain ⟨r, hr, _⟩ := mapM_some_of_forall (remapEntry clusters ncl)
      (adj.getD j [])
      (fun pr hpr => by
        obtain ⟨k, _, _, hre⟩ := hentry j hj hpj pr hpr
        rw [hre]
        rfl)
    rw [remapRow, hr]
    rfl
  obtain ⟨newAdj, hnew, hF2⟩ := mapM_some_of_forall
    (remapRow clusters ncl)
    (((vfin.zip (clusters.zip adj)).filter (fun t => p t.1)).map (fun t => t.2.2))
    (by
      intro row hrow
      rw [hrows_eq] at hrow
      obtain ⟨j, hj, rfl⟩ := List.mem_map.mp hrow
      obtain ⟨hja, hpj⟩ := hidxmem j hj
      exact hrow_some j hja hpj)
  have hF2len : newAdj.length = idx.length := by
    have := List.Forall₂.length_eq hF2
    rw [← this, List.length_map, hkeep, List.length_map]
  refine ⟨newAdj, hnew, hF2len, ?_⟩
  have hrowF : ∀ i', i' < idx.length →
      remapRow clusters ncl (adj.getD (idx.getD i' 0) [])
        = some (newAdj.getD i' []) := by
    intro i' hi'
    have hlenrows : (((vfin.zip (clusters.zip adj)).filter
        (fun t => p t.1)).map (fun t => t.2.2)).length = idx.length := by
      rw [hrows_eq, List.length_map]
    have := forall2_getD hF2 [] [] i' (by omega)
    rw [hrows_eq, getD_map _ idx 0 [] i' hi'] at this
    exact this
  intro i' j' d
  constructor
  · intro hmem
    by_cases hi' : i' < idx.length
    · have hrf := hrowF i' hi'
      rw [remapRow] at hrf
      have hEF := mapM_eq_some_forall2 _ _ _ hrf
      obtain ⟨pr, hpr, hre⟩ := forall2_mem_right hEF (j', d) hmem
      obtain ⟨old, hold, hposq, hd⟩ := remapEntry_elim _ _ _ _ hre
      have hσi := (hσb i' hi').1
      have hprb : pr.1 < adj.length :=
        hW2 _ (getD_mem adj [] _ hσi) pr hpr
      have holdv : old = clusters.getD pr.1 (0, 0, 0) := by
        have := get?_eq_some_getD' clusters (0, 0, 0) pr.1 (by omega)
        rw [this] at hold
        exact (Option.some.inj hold).symm
      have hprp : p (vfin.getD pr.1 false) = true :=
        hclass _ hσi (hσb i' hi').2 pr hpr
      obtain ⟨k, hk, hkj⟩ := hmemidx pr.1 hprb hprp
      have hposk := hpos k hk
      rw [hkj] at hposk
      rw [holdv] at hposq
      have hjk : j' = k := Option.some.inj (hposq.symm.trans hposk)
      subst hjk
      refine ⟨hi', hk, ?_⟩
      have hd2 : d = pr.2 := hd
      rw [hkj, hd2]
      have hpair : pr = (pr.1, pr.2) := rfl
      rw [← hpair]
      exact hpr
    · exfalso
      have : newAdj.getD i' [] = [] := by
        rw [List.getD_eq_getElem?_getD,
          List.getElem?_eq_none_iff.mpr (by omega)]
        rfl
      rw [this] at hmem
      simp at hmem
  · rintro ⟨hi', hj', hmem⟩
    have hσj := (hσb j' hj').1
    have hre : remapEntry clusters ncl (idx.getD j' 0, d) = some (j', d) := by
      refine remapEntry_eq clusters ncl _
        (clusters.getD (idx.getD j' 0) (0, 0, 0)) j'
        (get?_eq_some_getD' clusters (0, 0, 0) _ (by omega)) (hpos j' hj')
    have hrf := hrowF i' hi'
    rw [remapRow] at hrf
    have hEF := mapM_eq_some_forall2 _ _ _ hrf
    obtain ⟨y, hy, hrey⟩ := forall2_mem_left hEF (idx.getD j' 0, d) hmem
    rw [hre] at hrey
    obtain rfl := Option.some.inj hrey
    exact hy

/-- `Component::partition` succeeds on a well-formed non-empty component:
the traversal visits member 0, both remaps succeed, and the unvisited
"other" part is strictly smaller and again well-formed (consistent
lengths, in-range neighbor indices, symmetric adjacency, distinct
offsets). -/
theorem partition_spec (c : CComp)
    (hW1 : c.adjacencyList.length = c.cardinality)
    (hW2 : ∀ l ∈ c.adjacencyList, ∀ q ∈ l, q.1 < c.cardinality)
    (hW3 : ∀ i j d, (j, d) ∈ c.adjacencyList.getD i [] →
      ∃ d2, (i, d2) ∈ c.adjacencyList.getD j [])
    (hW4 : (c.clusters.map (fun t => t.1)).Nodup)
    (hne : 1 ≤ c.cardinality) :
    ∃ p1 p2, c.partition = some (p1, p2) ∧
      p2.cardinality < c.cardinality ∧
      p2.adjacencyList.length = p2.cardinality ∧
      (∀ l ∈ p2.adjacencyList, ∀ q ∈ l, q.1 < p2.cardinality) ∧
      (∀ i j d, (j, d) ∈ p2.adjacencyList.getD i [] →
        ∃ d2, (i, d2) ∈ p2.adjacencyList.getD j []) ∧
      (p2.clusters.map (fun t => t.1)).Nodup := by
  have hadjN : ∀ l ∈ c.adjacencyList, ∀ q ∈ l,
      q.1 < c.adjacencyList.length := by
    rw [hW1]
    exact hW2
  have hca : c.clusters.length = c.adjacencyList.length := hW1.symm
  have hlenv : (List.replicate c.cardinality false).length
      = c.adjacencyList.length := by
    simp [hW1]
  have hfuel : ([0] : List ℕ).length +
      sumUnvisited c.adjacencyList (List.replicate c.cardinality false)
        < partFuel c := by
    rw [sumUnvisited_replicate, ← sum_map_length_eq, partFuel]
    simp only [List.length_singleton]
    omega
  obtain ⟨vfin, heqD, hvlen, _, hstk, hclo⟩ :=
    partDfs_spec c.adjacencyList hadjN (partFuel c)
      (List.replicate c.cardinality false) [0] hlenv
      (by
        intro j hj
        rw [List.mem_singleton] at hj
        subst hj
        omega)
      (by
        intro a ha
        rw [getD_replicate_false] at ha
        exact absurd ha (by simp))
      hfuel
  have hv0 : vfin.getD 0 false = true := hstk 0 (List.mem_singleton.mpr rfl)
  have hclass1 : ∀ j, j < c.adjacencyList.length →
      vfin.getD j false = true → ∀ pr ∈ c.adjacencyList.getD j [],
        vfin.getD pr.1 false = true := by
    intro j _ hj pr hpr
    refine hclo j hj pr.1 ?_
    show pr.1 ∈ (c.adjacencyList.getD j []).map Prod.fst
    exact List.mem_map_of_mem Prod.fst hpr
  have hclass2 : ∀ j, j < c.adjacencyList.length →
      (!(vfin.getD j false)) = true → ∀ pr ∈ c.adjacencyList.getD j [],
        (!(vfin.getD pr.1 false)) = true := by
    intro j hjb hj pr hpr
    have hprb : pr.1 < c.adjacencyList.length :=
      hadjN _ (getD_mem c.adjacencyList [] j hjb) pr hpr
    cases hv : vfin.getD pr.1 false with
    | false => rfl
    | true =>
        exfalso
        have hpr2 : (pr.1, pr.2) ∈ c.adjacencyList.getD j [] := by
          have hpair : pr = (pr.1, pr.2) := rfl
          rw [← hpair]
          exact hpr
        obtain ⟨d2, hd2⟩ := hW3 j pr.1 pr.2 hpr2
        have hjt := hclass1 pr.1 hprb hv (j, d2) hd2
        rw [hjt] at hj
        simp at hj
  obtain ⟨adj2, hm2, hlen2, hiff2⟩ :=
    remap_rows_spec c.clusters c.adjacencyList vfin (fun b => !b)
      hca hvlen hadjN hW4 hclass2
  obtain ⟨adj1, hm1, _, _⟩ :=
    remap_rows_spec c.clusters c.adjacencyList vfin (fun b => b)
      hca hvlen hadjN hW4 hclass1
  have hm2b : (((vfin.zip (c.clusters.zip c.adjacencyList)).filter
      (fun t => !t.1)).map (fun t => t.2.2)).mapM
        (remapRow c.clusters
          (((vfin.zip (c.clusters.zip c.adjacencyList)).filter
            (fun t => !t.1)).map (fun t => t.2.1))) = some adj2 := hm2
  have hm1b : (((vfin.zip (c.clusters.zip c.adjacencyList)).filter
      (fun t => t.1)).map (fun t => t.2.2)).mapM
        (remapRow c.clusters
          (((vfin.zip (c.clusters.zip c.adjacencyList)).filter
            (fun t => t.1)).map (fun t => t.2.1))) = some adj1 := hm1
  have hlen2b : adj2.length = ((List.range vfin.length).filter
      (fun j => !(vfin.getD j false))).length := hlen2
  have hiff2b : ∀ i' j' d, (j', d) ∈ adj2.getD i' [] ↔
      (i' < ((List.range vfin.length).filter
          (fun j => !(vfin.getD j false))).length ∧
       j' < ((List.range vfin.length).filter
          (fun j => !(vfin.getD j false))).length ∧
       (((List.range vfin.length).filter
          (fun j => !(vfin.getD j false))).getD j' 0, d)
         ∈ c.adjacencyList.getD (((List.range vfin.length).filter
          (fun j => !(vfin.getD j false))).getD i' 0) []) := hiff2
  have hzlen : vfin.length = (c.clusters.zip c.adjacencyList).length := by
    rw [List.length_zip, hca, Nat.min_self]
    exact hvlen
  have hkeep2 : (vfin.zip (c.clusters.zip c.adjacencyList)).filter
      (fun t => !t.1)
      = ((List.range vfin.length).filter (fun j => !(vfin.getD j false))).map
          (fun j => (vfin.getD j false,
            (c.clusters.zip c.adjacencyList).getD j ((0, 0, 0), []))) :=
    zip_filter_eq_index ((0, 0, 0), ([] : List (ℕ × ℚ))) (fun b => !b) vfin
      (c.clusters.zip c.adjacencyList) hzlen
  have hp2len : (((vfin.zip (c.clusters.zip c.adjacencyList)).filter
      (fun t => !t.1)).map (fun t => t.2.1)).length
      = ((List.range vfin.length).filter
          (fun j => !(vfin.getD j false))).length := by
    rw [hkeep2, List.length_map, List.length_map]
  have hsplitb : ((List.range vfin.length).filter
        (fun j => vfin.getD j false)).length
      + ((List.range vfin.length).filter
        (fun j => !(vfin.getD j false))).length = vfin.length := by
    have h := length_filter_not (fun j => vfin.getD j false)
      (List.range vfin.length)
    rw [List.length_range] at h
    exact h
  have h1pos : 1 ≤ ((List.range vfin.length).filter
      (fun j => vfin.getD j false)).length := by
    have h0 : 0 ∈ (List.range vfin.length).filter
        (fun j => vfin.getD j false) := by
      rw [List.mem_filter, List.mem_range]
      refine ⟨?_, hv0⟩
      rw [hvlen, hW1]
      omega
    have := List.length_pos.mpr (List.ne_nil_of_mem h0)
    omega
  have hcar : vfin.length = c.cardinality := by
    rw [hvlen]
    exact hW1
  refine ⟨{ clusters := ((vfin.zip (c.clusters.zip c.adjacencyList)).filter
                (fun t => t.1)).map (fun t => t.2.1),
            adjacencyList := adj1,
            population := (((((vfin.zip
                (c.clusters.zip c.adjacencyList)).filter
                (fun t => t.1)).map (fun t => t.2.1)).map
                (fun t => t.2.1))).sum,
            accCpCarRatios := ((c.accCpCarRatios.zip vfin).filter
                (fun t => t.2)).map (fun t => t.1),
            anomalyProps := ((c.anomalyProps.zip vfin).filter
                (fun t => t.2)).map (fun t => t.1) },
    { clusters := ((vfin.zip (c.clusters.zip c.adjacencyList)).filter
          (fun t => !t.1)).map (fun t => t.2.1),
      adjacencyList := adj2,
      population := (((((vfin.zip (c.clusters.zip c.adjacencyList)).filter
          (fun t => !t.1)).map (fun t => t.2.1)).map
          (fun t => t.2.1))).sum,
      accCpCarRatios := ((c.accCpCarRatios.zip vfin).filter
          (fun t => !t.2)).map (fun t => t.1),
      anomalyProps := ((c.anomalyProps.zip vfin).filter
          (fun t => !t.2)).map (fun t => t.1) }, ?_, ?_, ?_, ?_, ?_, ?_⟩
  · simp only [CComp.partition, Option.bind_eq_bind, heqD, Option.some_bind,
      hm2b, hm1b]
    rfl
  · show (((vfin.zip (c.clusters.zip c.adjacencyList)).filter
        (fun t => !t.1)).map (fun t => t.2.1)).length < c.cardinality
    rw [hp2len]
    omega
  · show adj2.length
      = (((vfin.zip (c.clusters.zip c.adjacencyList)).filter
        (fun t => !t.1)).map (fun t => t.2.1)).length
    rw [hlen2b]
    exact hp2len.symm
  · intro l hl q hq
    show q.1 < (((vfin.zip (c.clusters.zip c.adjacencyList)).filter
        (fun t => !t.1)).map (fun t => t.2.1)).length
    obtain ⟨i', hi', hgl⟩ := List.mem_iff_getElem.mp hl
    have hgd : adj2.getD i' [] = l := by
      rw [List.getD_eq_getElem?_getD, List.getElem?_eq_getElem hi']
      simpa using hgl
    have hq2 : (q.1, q.2) ∈ adj2.getD i' [] := by
      rw [hgd]
      have hpair : q = (q.1, q.2) := rfl
      rw [← hpair]
      exact hq
    obtain ⟨_, hj', _⟩ := (hiff2b i' q.1 q.2).mp hq2
    rw [hp2len]
    exact hj'
  · intro i j d hmem
    obtain ⟨hi, hj, horg⟩ := (hiff2b i j d).mp hmem
    obtain ⟨d2, hd2⟩ := hW3 _ _ _ horg
    exact ⟨d2, (hiff2b j i d2).mpr ⟨hj, hi, hd2⟩⟩
  · show ((((vfin.zip (c.clusters.zip c.adjacencyList)).filter
        (fun t => !t.1)).map (fun t => t.2.1)).map (fun t => t.1)).Nodup
    have hp2cl_eq : ((vfin.zip (c.clusters.zip c.adjacencyList)).filter
        (fun t => !t.1)).map (fun t => t.2.1)
        = ((List.range vfin.length).filter
            (fun j => !(vfin.getD j false))).map
          (fun j => c.clusters.getD j (0, 0, 0)) := by
      rw [hkeep2, List.map_map]
      apply List.map_congr_left
      intro j hj
      rw [List.mem_filter, List.mem_range] at hj
      have hja : j < c.adjacencyList.length := by omega
      have hjc : j < c.clusters.length := by omega
      simp only [Function.comp_apply]
      rw [zip_getD c.clusters c.adjacencyList (0, 0, 0) [] j hjc hja]
    rw [hp2cl_eq, List.map_map]
    refine List.Nodup.map_on ?_ (List.Nodup.filter _ (List.nodup_range _))
    intro x hx y hy hfxy
    by_contra hne2
    rw [List.mem_filter, List.mem_range] at hx hy
    have hxb : x < c.clusters.length := by omega
    have hyb : y < c.clusters.length := by omega
    exact nodup_map_getD_ne (fun t => t.1) hW4 (0, 0, 0) hxb hyb hne2 hfxy

/-- The component-splitting loop of `from_clusters` terminates with a value
when started on a well-formed non-empty component with fuel above its
cardinality: every `partition` round strictly shrinks the rest. -/
theorem buildComponentsLoop_total :
    ∀ (fuel : ℕ) (c : CComp),
      c.adjacencyList.length = c.cardinality →
      (∀ l ∈ c.adjacencyList, ∀ q ∈ l, q.1 < c.cardinality) →
      (∀ i j d, (j, d) ∈ c.adjacencyList.getD i [] →
        ∃ d2, (i, d2) ∈ c.adjacencyList.getD j []) →
      (c.clusters.map (fun t => t.1)).Nodup →
      1 ≤ c.cardinality → c.cardinality < fuel →
      (buildComponentsLoop fuel c).isSome := by
  intro fuel
  induction fuel with
  | zero =>
      intro c _ _ _ _ _ h
      omega
  | succ f ih =>
      intro c hW1 hW2 hW3 hW4 hne hlt
      obtain ⟨p1, p2, hpart, hsz, hw1, hw2, hw3, hw4⟩ :=
        partition_spec c hW1 hW2 hW3 hW4 hne
      rw [buildComponentsLoop]
      rw [Option.bind_eq_bind, hpart, Option.some_bind]
      by_cases hemp : CComp.isEmptyC p2
      · rw [if_pos hemp]
        rfl
      · rw [if_neg hemp]
        have hclne : p2.clusters ≠ [] := by
          intro h
          apply hemp
          rw [CComp.isEmptyC, h]
          rfl
        have hcard : p2.cardinality = p2.clusters.length := rfl
        have hne2 : 1 ≤ p2.cardinality := by
          have := List.length_pos.mpr hclne
          omega
        have hrec := ih p2 hw1 hw2 hw3 hw4 hne2 (by omega)
        obtain ⟨rest, hrest⟩ := Option.isSome_iff_exists.mp hrec
        rw [Option.bind_eq_bind, hrest, Option.some_bind]
        rfl

/-- Placeholder member used only as a `getD` default. -/
def oddBallDefault : OddBallData :=
  { offset := 0, cardinality := 0, argCenter := 0, radius := 0,
    accCpCarRatio := 0, ratios := [] }

/-- `getD` on an enumerated list pairs the index with the base `getD`. -/
theorem enum_getD {α : Type} (l : List α) (d0 : ℕ × α) (i : ℕ)
    (h : i < l.length) : l.enum.getD i d0 = (i, l.getD i d0.2) := by
  have he : i < l.enum.length := by
    rw [List.enum_length]
    omega
  rw [List.getD_eq_getElem?_getD, List.getElem?_eq_getElem he,
    List.getD_eq_getElem?_getD, List.getElem?_eq_getElem h]
  simp [List.getElem_enum]

/-- Membership characterisation of the adjacency list built by
`Component::new`: `j` with distance `d` is adjacent to `i` exactly when
both are distinct in-range members whose balls overlap, with `d` their
distance. -/
theorem mem_adjNew (dist : OddBallData → OddBallData → ℚ)
    (cs : List OddBallData) (i j : ℕ) (d : ℚ) :
    (j, d) ∈ (CComp.new dist cs).adjacencyList.getD i [] ↔
      (i < cs.length ∧ j < cs.length ∧ j ≠ i ∧
        dist (cs.getD i oddBallDefault) (cs.getD j oddBallDefault)
          ≤ (cs.getD i oddBallDefault).radius
            + (cs.getD j oddBallDefault).radius ∧
        d = dist (cs.getD i oddBallDefault) (cs.getD j oddBallDefault)) := by
  have hadjdef : (CComp.new dist cs).adjacencyList
      = cs.enum.map (fun ic =>
          (cs.enum.filter (fun jc => jc.1 ≠ ic.1)).filterMap (fun jc =>
            if dist ic.2 jc.2 ≤ ic.2.radius + jc.2.radius then
              some (jc.1, dist ic.2 jc.2)
            else none)) := rfl
  by_cases hi : i < cs.length
  · have hrow : (CComp.new dist cs).adjacencyList.getD i []
        = (cs.enum.filter (fun jc => jc.1 ≠ i)).filterMap (fun jc =>
            if dist (cs.getD i oddBallDefault) jc.2
                ≤ (cs.getD i oddBallDefault).radius + jc.2.radius then
              some (jc.1, dist (cs.getD i oddBallDefault) jc.2)
            else none) := by
      rw [hadjdef, getD_map _ cs.enum (0, oddBallDefault) []
        i (by rw [List.enum_length]; omega),
        enum_getD cs (0, oddBallDefault) i hi]
    rw [hrow, List.mem_filterMap]
    constructor
    · rintro ⟨jc, hjc, hg⟩
      rw [List.mem_filter] at hjc
      obtain ⟨hjm, hjne⟩ := hjc
      rw [List.mem_enum_iff_getElem?] at hjm
      obtain ⟨hjb, hjget⟩ := List.getElem?_eq_some_iff.mp hjm
      have hjval : cs.getD jc.1 oddBallDefault = jc.2 := by
        rw [List.getD_eq_getElem?_getD, hjm]
        rfl
      by_cases hcond : dist (cs.getD i oddBallDefault) jc.2
          ≤ (cs.getD i oddBallDefault).radius + jc.2.radius
      · rw [if_pos hcond] at hg
        have heq := Option.some.inj hg
        have hj1 : jc.1 = j := congrArg Prod.fst heq
        have hdv : dist (cs.getD i oddBallDefault) jc.2 = d :=
          congrArg Prod.snd heq
        have hjval2 : cs.getD j oddBallDefault = jc.2 := by
          rw [← hj1]
          exact hjval
        refine ⟨hi, ?_, ?_, ?_, ?_⟩
        · rw [← hj1]
          exact hjb
        · rw [← hj1]
          exact of_decide_eq_true hjne
        · rw [hjval2]
          exact hcond
        · rw [hjval2, hdv]
      · rw [if_neg hcond] at hg
        exact absurd hg (by simp)
    · rintro ⟨hi2, hjb, hjne, hcond, hd⟩
      refine ⟨(j, cs.getD j oddBallDefault), ?_, ?_⟩
      · rw [List.mem_filter]
        constructor
        · rw [List.mem_enum_iff_getElem?]
          show cs[j]? = some (cs.getD j oddBallDefault)
          rw [List.getElem?_eq_getElem hjb, List.getD_eq_getElem?_getD,
            List.getElem?_eq_getElem hjb]
          rfl
        · exact decide_eq_true hjne
      · show (if dist (cs.getD i oddBallDefault) (cs.getD j oddBallDefault)
              ≤ (cs.getD i oddBallDefault).radius
                + (cs.getD j oddBallDefault).radius then
            some (j, dist (cs.getD i oddBallDefault)
              (cs.getD j oddBallDefault))
          else none) = some (j, d)
        rw [if_pos hcond, hd]
  · have hnil : (CComp.new dist cs).adjacencyList.getD i [] = [] := by
      rw [hadjdef, List.getD_eq_getElem?_getD,
        List.getElem?_eq_none_iff.mpr
          (by rw [List.length_map, List.enum_length]; omega)]
      rfl
    rw [hnil]
    simp only [List.not_mem_nil, false_iff]
    intro hfalse
    exact absurd hfalse.1 hi

/-- The member list and adjacency list of `Component::new` have the same
length. -/
theorem new_adjlen (dist : OddBallData → OddBallData → ℚ)
    (cs : List OddBallData) :
    (CComp.new dist cs).adjacencyList.length
      = (CComp.new dist cs).cardinality := by
  show (cs.enum.map _).length = (cs.map _).length
  rw [List.length_map, List.length_map, List.enum_length]

/-- `Component::new` keeps one member per input cluster. -/
theorem new_card (dist : OddBallData → OddBallData → ℚ)
    (cs : List OddBallData) :
    (CComp.new dist cs).cardinality = cs.length := by
  show (cs.map _).length = cs.length
  rw [List.length_map]

/-- The member offsets of `Component::new` are the input offsets. -/
theorem new_offsets (dist : OddBallData → OddBallData → ℚ)
    (cs : List OddBallData) :
    (CComp.new dist cs).clusters.map (fun t => t.1)
      = cs.map (fun c => c.offset) := by
  show (cs.map _).map _ = _
  rw [List.map_map]
  rfl

/-- Every neighbor index produced by `Component::new` is in range. -/
theorem new_adj_bounded (dist : OddBallData → OddBallData → ℚ)
    (cs : List OddBallData) :
    ∀ l ∈ (CComp.new dist cs).adjacencyList, ∀ q ∈ l,
      q.1 < (CComp.new dist cs).cardinality := by
  intro l hl q hq
  rw [new_card]
  have hadjdef : (CComp.new dist cs).adjacencyList
      = cs.enum.map (fun ic =>
          (cs.enum.filter (fun jc => jc.1 ≠ ic.1)).filterMap (fun jc =>
            if dist ic.2 jc.2 ≤ ic.2.radius + jc.2.radius then
              some (jc.1, dist ic.2 jc.2)
            else none)) := rfl
  rw [hadjdef] at hl
  obtain ⟨ic, _, rfl⟩ := List.mem_map.mp hl
  obtain ⟨jc, hjc, hg⟩ := List.mem_filterMap.mp hq
  rw [List.mem_filter] at hjc
  obtain ⟨hjb, _⟩ := List.getElem?_eq_some_iff.mp
    (List.mem_enum_iff_getElem?.mp hjc.1)
  by_cases hcond : dist ic.2 jc.2 ≤ ic.2.radius + jc.2.radius
  · rw [if_pos hcond] at hg
    have hq1 : jc.1 = q.1 := congrArg Prod.fst (Option.some.inj hg)
    omega
  · rw [if_neg hcond] at hg
    exact absurd hg (by simp)

/-- With a symmetric distance the adjacency of `Component::new` is
symmetric. -/
theorem new_adj_symm (dist : OddBallData → OddBallData → ℚ)
    (cs : List OddBallData) (hsym : ∀ a b, dist a b = dist b a) :
    ∀ i j d, (j, d) ∈ (CComp.new dist cs).adjacencyList.getD i [] →
      ∃ d2, (i, d2) ∈ (CComp.new dist cs).adjacencyList.getD j [] := by
  intro i j d h
  obtain ⟨hi, hj, hne, hcond, _⟩ := (mem_adjNew dist cs i j d).mp h
  refine ⟨dist (cs.getD j oddBallDefault) (cs.getD i oddBallDefault),
    (mem_adjNew dist cs j i _).mpr ⟨hj, hi, fun hij => hne hij.symm, ?_, rfl⟩⟩
  rw [hsym, add_comm]
  exact hcond

/-- Claim C10: building the compact `Graph` from an empty cluster list is
not supported — `partition` unconditionally pushes local index 0 and
indexes the visited array there, so `from_clusters` on an empty slice hits
an out-of-bounds index (a panic, embedded as `none`); on any non-empty
cluster list with a symmetric distance and pairwise-distinct offsets,
`from_clusters` is total. -/
theorem claim_C10_empty_unsupported
    (dist : OddBallData → OddBallData → ℚ) (cs : List OddBallData)
    (hcs : cs ≠ [])
    (hsym : ∀ a b, dist a b = dist b a)
    (hoffs : (cs.map (fun c => c.offset)).Nodup) :
    fromClusters dist [] = none ∧ (fromClusters dist cs).isSome := by
  constructor
  · rfl
  · rw [fromClusters]
    have hne : 1 ≤ (CComp.new dist cs).cardinality := by
      rw [new_card]
      have := List.length_pos.mpr hcs
      omega
    have hlt : (CComp.new dist cs).cardinality < cs.length + 1 := by
      rw [new_card]
      omega
    have hW4 : ((CComp.new dist cs).clusters.map (fun t => t.1)).Nodup := by
      rw [new_offsets]
      exact hoffs
    have htot := buildComponentsLoop_total (cs.length + 1) (CComp.new dist cs)
      (new_adjlen dist cs) (new_adj_bounded dist cs)
      (new_adj_symm dist cs hsym) hW4 hne hlt
    obtain ⟨comps, hcomps⟩ := Option.isSome_iff_exists.mp htot
    rw [Option.bind_eq_bind, hcomps, Option.some_bind]
    rfl

/-- Concrete member for the C10 witness. -/
def oddBallW : OddBallData :=
  { offset := 3, cardinality := 2, argCenter := 1, radius := 0,
    accCpCarRatio := 1, ratios := [1] }

/-- Witness for claim C10 at a concrete singleton input. -/
theorem claim_C10_empty_unsupported_witness :
    fromClusters (fun _ _ => (0 : ℚ)) [] = none ∧
      (fromClusters (fun _ _ => (0 : ℚ)) [oddBallW]).isSome :=
  claim_C10_empty_unsupported (fun _ _ => (0 : ℚ)) [oddBallW]
    (by simp) (fun a b => rfl) (by decide)
